import Mathlib

/-!
# jsonnetx: manifest extraction and import resolution

A shallow embedding of `manifest.go` (`IsManifest`, `ExtractManifestTo`) and of
`importer.go` (`MakeImporter`, `Import`, `httpImport`, `ensureVendor`,
`resolveJsonnetFile`), followed by the properties of the specification proved
about them.
-/

namespace Jsonnetx

/-! ## Value trees (`interface{}` as produced by evaluating a template) -/

/-- A dynamically typed Go value (`interface{}`) of the shapes a rendered
template can take. `null` is the nil interface, `nilMap` is the typed nil
`map[string]interface{}(nil)`, and `map` lists the entries of a non-nil map in
the order the runtime happens to iterate them (keys are distinct in a map that
Go can build). The numeric payload of `num` is never inspected. -/
inductive Value where
  | null
  | bool (b : Bool)
  | num (n : Int)
  | str (s : String)
  | seq (xs : List Value)
  | nilMap
  | map (entries : List (String × Value))

/-- Go's `len` on a string: the number of bytes of its UTF-8 encoding. -/
def len (s : String) : Nat := s.utf8ByteSize

/-- Map indexing `x[k]`: the value stored under `k`, or the zero value of
`interface{}` (nil) when the key is absent. -/
def index (x : List (String × Value)) (k : String) : Value :=
  match x with
  | [] => Value.null
  | (k', v) :: rest => if k' = k then v else index rest k

/-- Lexical comparison of two character sequences by code point, which is the
order Go's `<` on strings induces on their UTF-8 bytes. -/
def lessChars : List Char → List Char → Bool
  | [], [] => false
  | [], _ :: _ => true
  | _ :: _, [] => false
  | a :: as, b :: bs =>
    if a.toNat < b.toNat then true
    else if b.toNat < a.toNat then false
    else lessChars as bs

/-- Go's `a < b` on strings. -/
def less (a b : String) : Bool := lessChars a.data b.data

/-- Go's `sort.Strings`: the keys rearranged into increasing order. -/
def sortStrings (keys : List String) : List String :=
  keys.insertionSort (fun a b => less b a = false)

/-- Embedding of `IsManifest` (manifest.go). -/
def IsManifest (x : Value) : Bool :=
  match x with
  | Value.map obj =>
    match index obj "apiVersion" with
    | Value.str v =>
      if len v = 0 then false
      else
        match index obj "kind" with
        | Value.str v => if len v = 0 then false else true
        | _ => false
    | _ => false
  | _ => false

/-- Embedding of `ExtractManifestTo` (manifest.go); `dst ++ [obj]` is
`append(dst, obj)` and the two folds are the two `for ... range` loops. A nil
map takes the map case of the type switch and has no key to visit. -/
def ExtractManifestTo (dst : List Value) (obj : Value) : List Value :=
  if IsManifest obj then dst ++ [obj]
  else
    match obj with
    | Value.map x =>
      (sortStrings (x.map Prod.fst)).foldl
        (fun dst k => ExtractManifestTo dst (index x k)) dst
    | Value.nilMap => dst
    | Value.seq x =>
      x.attach.foldl (fun dst item => ExtractManifestTo dst item.1) dst
    | _ => dst
termination_by sizeOf obj
decreasing_by
  · simp_wf
    induction x with
    | nil => simp [index]
    | cons e rest ih =>
      obtain ⟨k', v⟩ := e
      simp only [index]
      split
      · simp; omega
      · simp; omega
  · simp_wf
    have := List.sizeOf_lt_of_mem item.2
    omega

/-! ## Go library functions used by the importer

`path/filepath` (POSIX) and `net/url` are outside the repository. They are
modelled here on character lists, for URLs and paths written without
percent-escapes, user information or control characters; error values are
identified with their messages. -/

/-- A Go `error`, identified with its message. -/
abbrev GoError := String

/-- Go's `errors.Wrap(err, msg)`: the message becomes `msg: err`. -/
def wrap (err : GoError) (msg : String) : GoError := msg ++ ": " ++ err

/-- Go's `strings.HasPrefix(s, p)`. -/
def hasPrefix (s p : String) : Bool := p.data.isPrefixOf s.data

/-- The elements of a path: the pieces between its `/` separators. -/
def splitSlash : List Char → List (List Char)
  | [] => [[]]
  | c :: cs =>
    if c = '/' then [] :: splitSlash cs
    else
      match splitSlash cs with
      | [] => [[c]]
      | seg :: rest => (c :: seg) :: rest

/-- The loop of `filepath.Clean`: `out` holds the elements written so far,
last one first. Empty and `.` elements are skipped, `..` removes the last real
element when there is one and is kept only at the start of a path that is not
rooted. -/
def cleanElems (rooted : Bool) (out : List (List Char)) : List (List Char) → List (List Char)
  | [] => out
  | seg :: segs =>
    if seg = [] ∨ seg = ['.'] then cleanElems rooted out segs
    else if seg = ['.', '.'] then
      match out with
      | top :: rest =>
        if top ≠ ['.', '.'] then cleanElems rooted rest segs
        else cleanElems rooted (seg :: out) segs
      | [] => if rooted then cleanElems rooted out segs else cleanElems rooted (seg :: out) segs
    else cleanElems rooted (seg :: out) segs

/-- Elements joined by `/`. -/
def joinSlash : List (List Char) → List Char
  | [] => []
  | [seg] => seg
  | seg :: segs => seg ++ '/' :: joinSlash segs

/-- Go's `filepath.Clean` on POSIX. -/
def cleanChars (path : List Char) : List Char :=
  match path with
  | [] => ['.']
  | c :: _ =>
    let rooted := decide (c = '/')
    let body := joinSlash (cleanElems rooted [] (splitSlash path)).reverse
    if rooted then '/' :: body
    else if body = [] then ['.'] else body

/-- Go's `filepath.Dir` on POSIX: everything up to the last separator, cleaned. -/
def filepathDir (path : String) : String :=
  String.mk (cleanChars (path.data.reverse.dropWhile (fun c => c ≠ '/')).reverse)

/-- Go's `filepath.Join` on POSIX: leading empty elements are dropped, the
rest are joined by `/` and cleaned; no non-empty element gives `""`. -/
def filepathJoin (elem : List String) : String :=
  match elem.dropWhile (fun e => e = "") with
  | [] => ""
  | rest => String.mk (cleanChars (joinSlash (rest.map String.data)))

/-- The fields of Go's `url.URL` that parsing and printing a URL without
user information or escapes involve. -/
structure URL where
  Scheme : String
  Opaque : String
  Host : String
  Path : String
  OmitHost : Bool
  ForceQuery : Bool
  RawQuery : String
  Fragment : String

/-- Split at the first occurrence of `sep`: the text before it, and the text
after it when `sep` occurs. -/
def cutAt (sep : Char) : List Char → List Char × Option (List Char)
  | [] => ([], none)
  | c :: cs =>
    if c = sep then ([], some cs)
    else
      let r := cutAt sep cs
      (c :: r.1, r.2)

/-- ASCII lower-casing of one character. -/
def lowerChar (c : Char) : Char :=
  if 'A'.toNat ≤ c.toNat ∧ c.toNat ≤ 'Z'.toNat then Char.ofNat (c.toNat + 32) else c

/-- Go's `getScheme`: `some (scheme, rest)` when the text starts with
`scheme:`, `some ([], text)` when it has no scheme, `none` for the error
"missing protocol scheme" (a colon in first position). `seen` holds the
characters read so far, last one first. -/
def getScheme (whole : List Char) (seen : List Char) : List Char → Option (List Char × List Char)
  | [] => some ([], whole)
  | c :: cs =>
    if c.isAlpha then getScheme whole (c :: seen) cs
    else if c.isDigit ∨ c = '+' ∨ c = '-' ∨ c = '.' then
      if seen = [] then some ([], whole) else getScheme whole (c :: seen) cs
    else if c = ':' then
      if seen = [] then none else some (seen.reverse, cs)
    else some ([], whole)

/-- Go's `url.Parse` for URLs without user information or escapes: the
fragment and the query are split off, then the scheme, then the authority
between `//` and the next `/`; what is left is the path. -/
def urlParse (rawURL : String) : Except GoError URL :=
  let (u, frag) := cutAt '#' rawURL.data
  if u.any (fun c => c.toNat < 32 ∨ c.toNat = 127) then
    Except.error "net/url: invalid control character in URL"
  else
    match getScheme u [] u with
    | none => Except.error "missing protocol scheme"
    | some (scheme, rest) =>
      let scheme := scheme.map lowerChar
      let (rest, query) := cutAt '?' rest
      let forceQuery := decide (query = some [])
      let rawQuery := query.getD []
      let url : URL :=
        { Scheme := String.mk scheme, Opaque := "", Host := "", Path := "",
          OmitHost := false, ForceQuery := forceQuery, RawQuery := String.mk rawQuery,
          Fragment := String.mk (frag.getD []) }
      match rest with
      | '/' :: '/' :: auth =>
        if scheme = [] ∧ ['/'].isPrefixOf auth then
          Except.ok { url with Path := String.mk rest }
        else
          let (host, path) := cutAt '/' auth
          Except.ok { url with
            Host := String.mk host
            Path := String.mk (match path with | some p => '/' :: p | none => []) }
      | '/' :: _ =>
        Except.ok { url with Path := String.mk rest, OmitHost := decide (scheme ≠ []) }
      | _ =>
        if scheme ≠ [] then Except.ok { url with Opaque := String.mk rest }
        else if (cutAt '/' rest).1.contains ':' then
          Except.error "first path segment in URL cannot contain colon"
        else Except.ok { url with Path := String.mk rest }

/-- Go's `(*url.URL).String` for URLs without user information or escapes. -/
def URL.String (u : URL) : String :=
  let head := if u.Scheme ≠ "" then u.Scheme ++ ":" else ""
  let body :=
    if u.Opaque ≠ "" then head ++ u.Opaque
    else
      let auth :=
        if (u.Scheme ≠ "" ∨ u.Host ≠ "") ∧ ¬ (u.OmitHost = true ∧ u.Host = "") then
          (if u.Host ≠ "" ∨ u.Path ≠ "" then "//" else "") ++ u.Host
        else ""
      let sep :=
        if u.Path ≠ "" ∧ u.Path.data.head? ≠ some '/' ∧ u.Host ≠ "" then "/" else ""
      let dot :=
        if head ++ auth ++ sep = "" ∧ (cutAt '/' u.Path.data).1.contains ':' then "./" else ""
      head ++ auth ++ sep ++ dot ++ u.Path
  let query := if u.ForceQuery ∨ u.RawQuery ≠ "" then "?" ++ u.RawQuery else ""
  let frag := if u.Fragment ≠ "" then "#" ++ u.Fragment else ""
  body ++ query ++ frag

/-! ## The importer (importer.go)

The file system, the network, the go-jsonnet file importer and the
jsonnet-bundler are outside the repository: they are operations of an
environment acting on a world `W`. `FC` is the private cache of a
`jsonnet.FileImporter`, `JF` a `spec.JsonnetFile` and `LS` a lock map
`map[string]deps.Dependency`. Log output is not modelled. -/

/-- Go's `jsonnet.Contents`: the text of an imported file. -/
structure Contents where
  data : String
deriving DecidableEq

/-- Go's `jsonnet.MakeContents`. -/
def MakeContents (s : String) : Contents := ⟨s⟩

/-- Go's `jsonnet.FileImporter`: the search paths and the importer's own cache. -/
structure FileImporter (FC : Type) where
  JPaths : List String
  fsCache : FC

/-- What `http.Get` hands back on success: the status line and what
`ioutil.ReadAll(resp.Body)` yields. -/
structure Response where
  StatusCode : Nat
  Status : String
  Body : Except GoError String

/-- Go's `http.StatusOK`. -/
def StatusOK : Nat := 200

/-- The operations the importer calls outside the repository, each acting on
the world: the go-jsonnet file importer, `http.Get` on the importer's client,
JSON decoding of a `spec.JsonnetFile` (with its `Dependencies` field and the
empty lock map), `os.MkdirAll` and `jb.Ensure`. -/
structure Env (W FC JF LS : Type) where
  localImport : FileImporter FC → String → String → W →
    Except GoError (Contents × String) × FC × W
  newFileCache : FC
  httpGet : String → W → Except GoError Response × W
  decodeJsonnetFile : String → Except GoError JF
  dependencies : JF → LS
  noDependencies : LS
  mkdirAll : String → W → Option GoError × W
  jbEnsure : JF → String → LS → W → Option GoError × W

/-- The `importer` struct; `cache` is the map from resolved URL to contents,
and `local_` is the field `local`. The HTTP client lives in the world. -/
structure importer (FC : Type) where
  rootFrom : String
  vendorPath : String
  bundled : Bool
  local_ : FileImporter FC
  cache : String → Option Contents

/-- What the record of a run keeps: the calls that left the repository, and
each start of the manifest lookup `resolveJsonnetFile`. -/
inductive Event where
  | localImport (from_ path : String)
  | httpGet (url : String)
  | resolveJsonnetFile
  | mkdirAll (path : String)
  | jbEnsure (vendorPath : String)
deriving DecidableEq

/-- An importer together with the world it runs in and the record of the
outside calls made so far (oldest first). -/
structure State (W FC : Type) where
  self : importer FC
  world : W
  calls : List Event

/-- Embedding of `MakeImporter`: the vendor path is searched first, nothing is
cached and no provisioning has been attempted. -/
def MakeImporter {W FC JF LS : Type} (env : Env W FC JF LS)
    (rootFrom vendorPath : String) (jsonnetPath : List String) : importer FC :=
  { rootFrom := rootFrom
    vendorPath := vendorPath
    bundled := false
    local_ := { JPaths := vendorPath :: jsonnetPath, fsCache := env.newFileCache }
    cache := fun _ => none }

/-- The map assignment `cache[k] = c`. -/
def cacheSet (cache : String → Option Contents) (k : String) (c : Contents) :
    String → Option Contents :=
  fun k' => if k' = k then some c else cache k'

/-- The call `i.local.Import(from, path)`. -/
def localImport {W FC JF LS : Type} (env : Env W FC JF LS) (from_ path : String)
    (s : State W FC) : Except GoError (Contents × String) × State W FC :=
  let r := env.localImport s.self.local_ from_ path s.world
  (r.1,
    { self := { s.self with local_ := { s.self.local_ with fsCache := r.2.1 } }
      world := r.2.2
      calls := s.calls ++ [Event.localImport from_ path] })

/-- Embedding of `importer.httpImport`. -/
def httpImport {W FC JF LS : Type} (env : Env W FC JF LS) (from_ path : String)
    (s : State W FC) : Except GoError (Contents × String) × State W FC :=
  let from_ := if len from_ = 0 then s.self.rootFrom else from_
  match urlParse from_ with
  | Except.error err => (Except.error (wrap err "invalid import path"), s)
  | Except.ok fromURL =>
    if fromURL.Scheme ≠ "http" ∧ fromURL.Scheme ≠ "https" then
      (Except.error ("invalid schema: " ++ fromURL.Scheme), s)
    else
      let fromURL := { fromURL with Path := filepathJoin [filepathDir fromURL.Path, path] }
      let foundAt := fromURL.String
      match s.self.cache foundAt with
      | some c => (Except.ok (c, foundAt), s)
      | none =>
        let r := env.httpGet foundAt s.world
        let s := { s with world := r.2, calls := s.calls ++ [Event.httpGet foundAt] }
        match r.1 with
        | Except.error err => (Except.error err, s)
        | Except.ok resp =>
          if resp.StatusCode ≠ StatusOK then
            (Except.error ("got " ++ resp.Status ++ " when import from " ++ foundAt), s)
          else
            match resp.Body with
            | Except.error err => (Except.error err, s)
            | Except.ok bs =>
              let c := MakeContents bs
              (Except.ok (c, foundAt),
                { s with self := { s.self with cache := cacheSet s.self.cache foundAt c } })

/-- The deferred `i.bundled = true` of `ensureVendor`. -/
def setBundled {W FC : Type} (s : State W FC) : State W FC :=
  { s with self := { s.self with bundled := true } }

/-- The closure `readFile` of `resolveJsonnetFile`, for the current `base`:
one GET of `name` next to `base.Path`, then the decoding of the body. -/
def readFile {W FC JF LS : Type} (env : Env W FC JF LS) (base : URL) (name : String)
    (s : State W FC) : Except GoError JF × State W FC :=
  let target := { base with Path := filepathJoin [base.Path, name] }
  let targetURL := target.String
  let r := env.httpGet targetURL s.world
  let s := { s with world := r.2, calls := s.calls ++ [Event.httpGet targetURL] }
  match r.1 with
  | Except.error err => (Except.error err, s)
  | Except.ok resp =>
    if resp.StatusCode ≠ StatusOK then (Except.error ("got " ++ resp.Status), s)
    else
      match resp.Body with
      | Except.error err => (Except.error err, s)
      | Except.ok text => (env.decodeJsonnetFile text, s)

/-- The `for` loop of `resolveJsonnetFile` and the lookup that follows it,
entered with `base.Path` already replaced by its directory. `fuel` bounds the
number of iterations; `resolveLoop_fuel` shows that the bound
`resolveJsonnetFile` passes is never reached while the loop condition holds. -/
def resolveLoop {W FC JF LS : Type} (env : Env W FC JF LS) :
    Nat → URL → State W FC → Except GoError (JF × LS) × State W FC
  | fuel, base, s =>
    let afterLoop : Except GoError (JF × LS) × State W FC :=
      let j := readFile env base "jsonnetfile.json" s
      match j.1 with
      | Except.error _ => (Except.error "cannot found jsonnetfile.json", j.2)
      | Except.ok jf =>
        let l := readFile env base "jsonnetfile.lock.json" j.2
        match l.1 with
        | Except.error _ => (Except.ok (jf, env.noDependencies), l.2)
        | Except.ok lf => (Except.ok (jf, env.dependencies lf), l.2)
    if base.Path ≠ "." ∧ base.Path ≠ "/" then
      match fuel with
      | 0 => afterLoop
      | fuel + 1 =>
        let j := readFile env base "jsonnetfile.json" s
        match j.1 with
        | Except.error _ =>
          resolveLoop env fuel { base with Path := filepathDir base.Path } j.2
        | Except.ok jf =>
          let l := readFile env base "jsonnetfile.lock.json" j.2
          match l.1 with
          | Except.error _ => (Except.ok (jf, env.noDependencies), l.2)
          | Except.ok lf => (Except.ok (jf, env.dependencies lf), l.2)
    else afterLoop

/-- Embedding of `importer.resolveJsonnetFile`. Each iteration shortens
`base.Path`, so its length bounds the number of iterations. -/
def resolveJsonnetFile {W FC JF LS : Type} (env : Env W FC JF LS) (s : State W FC) :
    Except GoError (JF × LS) × State W FC :=
  match urlParse s.self.rootFrom with
  | Except.error err => (Except.error (wrap err "invalid root url"), s)
  | Except.ok base =>
    let base := { base with Path := filepathDir base.Path }
    resolveLoop env (base.Path.length + 1) base s

/-- Embedding of `importer.ensureVendor`; `none` is a nil error. -/
def ensureVendor {W FC JF LS : Type} (env : Env W FC JF LS) (s : State W FC) :
    Option GoError × State W FC :=
  if s.self.bundled then (none, s)
  else
    let r := resolveJsonnetFile env { s with calls := s.calls ++ [Event.resolveJsonnetFile] }
    let s := r.2
    match r.1 with
    | Except.error _ => (none, setBundled s)
    | Except.ok (jf, ls) =>
      let dir := filepathJoin [s.self.vendorPath, ".tmp"]
      let m := env.mkdirAll dir s.world
      let s := { s with world := m.2, calls := s.calls ++ [Event.mkdirAll dir] }
      match m.1 with
      | some err => (some (wrap err "create vendor directory"), setBundled s)
      | none =>
        let e := env.jbEnsure jf s.self.vendorPath ls s.world
        let s := { s with world := e.2, calls := s.calls ++ [Event.jbEnsure s.self.vendorPath] }
        match e.1 with
        | some err => (some (wrap err "ensure vendor directory"), setBundled s)
        | none =>
          (none, setBundled { s with self := { s.self with
            local_ := { JPaths := s.self.local_.JPaths, fsCache := env.newFileCache } } })

/-- Embedding of `importer.Import`. -/
def Import {W FC JF LS : Type} (env : Env W FC JF LS) (from_ path : String)
    (s : State W FC) : Except GoError (Contents × String) × State W FC :=
  let l := localImport env from_ path s
  match l.1 with
  | Except.ok r => (Except.ok r, l.2)
  | Except.error err =>
    let h :=
      if len from_ = 0 ∨ hasPrefix from_ "http" then httpImport env from_ path l.2
      else (Except.error err, l.2)
    match h.1 with
    | Except.ok r => (Except.ok r, h.2)
    | Except.error _ =>
      let v := ensureVendor env h.2
      match v.1 with
      | some err => (Except.error err, v.2)
      | none => localImport env from_ path v.2

/-- A sequence of `Import` calls on one importer, in order. -/
def runImports {W FC JF LS : Type} (env : Env W FC JF LS) (reqs : List (String × String))
    (s : State W FC) : State W FC :=
  reqs.foldl (fun s r => (Import env r.1 r.2 s).2) s

/-- The URL `httpImport` looks up and fetches for an import of `path` from
`from_` (lines 75-87 of importer.go), or the error it stops with. -/
def foundAt (rootFrom from_ path : String) : Except GoError String :=
  let from_ := if len from_ = 0 then rootFrom else from_
  match urlParse from_ with
  | Except.error err => Except.error (wrap err "invalid import path")
  | Except.ok fromURL =>
    if fromURL.Scheme ≠ "http" ∧ fromURL.Scheme ≠ "https" then
      Except.error ("invalid schema: " ++ fromURL.Scheme)
    else
      Except.ok { fromURL with Path := filepathJoin [filepathDir fromURL.Path, path] }.String

/-- How many times the manifest lookup was invoked. -/
def countResolve (calls : List Event) : Nat := calls.count Event.resolveJsonnetFile

/-- How many times the vendoring tool was invoked. -/
def countEnsure (calls : List Event) : Nat :=
  (calls.filter (fun e => match e with | Event.jbEnsure _ => true | _ => false)).length

/-- How many times the local importer was asked for `(from_, path)`. -/
def countLocal (from_ path : String) (calls : List Event) : Nat :=
  calls.count (Event.localImport from_ path)

/-- How many HTTP requests the remote attempts issued. -/
def countHttp (calls : List Event) : Nat :=
  (calls.filter (fun e => match e with | Event.httpGet _ => true | _ => false)).length

/-- The state in which `Import` reaches `ensureVendor`: after the local
attempt and, when `from_` is empty or starts with `http`, the remote attempt. -/
def beforeVendor {W FC JF LS : Type} (env : Env W FC JF LS) (from_ path : String)
    (s : State W FC) : State W FC :=
  if len from_ = 0 ∨ hasPrefix from_ "http" then
    (httpImport env from_ path (localImport env from_ path s).2).2
  else (localImport env from_ path s).2

/-- The manifest lookup as `ensureVendor` runs it from the state `t`, with its
start put on record. -/
def startLookup {W FC JF LS : Type} (env : Env W FC JF LS) (t : State W FC) :
    Except GoError (JF × LS) × State W FC :=
  resolveJsonnetFile env { t with calls := t.calls ++ [Event.resolveJsonnetFile] }

/-- Provisioning budget: the manifest lookups made so far, plus one while
`bundled` is still unset. -/
def resolveBudget {W FC : Type} (s : State W FC) : Nat :=
  countResolve s.calls + (if s.self.bundled then 0 else 1)

/-- Provisioning budget for the vendoring tool. -/
def ensureBudget {W FC : Type} (s : State W FC) : Nat :=
  countEnsure s.calls + (if s.self.bundled then 0 else 1)

/-- The relation every importer operation keeps between the state it starts
in and the state it ends in: `rootFrom` is fixed, `bundled` is never unset,
cache entries stay as they are, and the provisioning budgets do not grow. -/
def Advances {W FC : Type} (s t : State W FC) : Prop :=
  t.self.rootFrom = s.self.rootFrom ∧
  (s.self.bundled = true → t.self.bundled = true) ∧
  (∀ k v, s.self.cache k = some v → t.self.cache k = some v) ∧
  resolveBudget t ≤ resolveBudget s ∧
  ensureBudget t ≤ ensureBudget s

/-! ## Concrete inputs -/

/-- The document `{"apiVersion":"v1","kind":"Pod"}`. -/
def pod : Value :=
  Value.map [("apiVersion", Value.str "v1"), ("kind", Value.str "Pod")]

/-- The document `{"apiVersion":"v1","kind":"Service"}`. -/
def service : Value :=
  Value.map [("apiVersion", Value.str "v1"), ("kind", Value.str "Service")]

/-- The document `{"apiVersion":"v1","kind":"ConfigMap","data":{}}`. -/
def configMap : Value :=
  Value.map [("apiVersion", Value.str "v1"), ("kind", Value.str "ConfigMap"),
    ("data", Value.map [])]

/-- A manifest that holds another manifest: a `List` document whose `items`
contain a Pod. -/
def podList : Value :=
  Value.map [("apiVersion", Value.str "v1"), ("kind", Value.str "List"),
    ("items", Value.seq [pod])]

/-- The map `{"apiVersion":"","kind":"X"}`. -/
def emptyVersion : Value :=
  Value.map [("apiVersion", Value.str ""), ("kind", Value.str "X")]

/-- The tree `{"items":[Pod,{"not":"manifest"}],"z":{"apiVersion":"","kind":"X"}}`. -/
def itemsTree : Value :=
  Value.map [("items", Value.seq [pod, Value.map [("not", Value.str "manifest")]]),
    ("z", emptyVersion)]

/-- A map that stores a Pod under `"b"` before a Service under `"a"`. -/
def bThenA : Value := Value.map [("b", pod), ("a", service)]

/-- An environment over a one-point world: nothing is found locally, the
server has `https://host/a/jsonnetfile.json` and nothing else, the manifest
decodes, and creating the vendor directory fails. -/
def envMkdirFails : Env Unit Unit Unit Unit where
  localImport := fun _ _ path w => (Except.error ("no match locally: " ++ path), (), w)
  newFileCache := ()
  httpGet := fun url w =>
    if url = "https://host/a/jsonnetfile.json" then
      (Except.ok { StatusCode := 200, Status := "200 OK", Body := Except.ok "dependencies" }, w)
    else
      (Except.ok { StatusCode := 404, Status := "404 Not Found", Body := Except.ok "" }, w)
  decodeJsonnetFile := fun _ => Except.ok ()
  dependencies := fun _ => ()
  noDependencies := ()
  mkdirAll := fun _ w => (some "permission denied", w)
  jbEnsure := fun _ _ _ w => (none, w)

/-- An environment over a one-point world: nothing is found locally, the
server has `https://host/a/jsonnetfile.json` and nothing else, the manifest
decodes, the vendor directory is created, and the vendoring tool fails. -/
def envEnsureFails : Env Unit Unit Unit Unit where
  localImport := fun _ _ path w => (Except.error ("no match locally: " ++ path), (), w)
  newFileCache := ()
  httpGet := fun url w =>
    if url = "https://host/a/jsonnetfile.json" then
      (Except.ok { StatusCode := 200, Status := "200 OK", Body := Except.ok "dependencies" }, w)
    else
      (Except.ok { StatusCode := 404, Status := "404 Not Found", Body := Except.ok "" }, w)
  decodeJsonnetFile := fun _ => Except.ok ()
  dependencies := fun _ => ()
  noDependencies := ()
  mkdirAll := fun _ w => (none, w)
  jbEnsure := fun _ _ _ w => (some "unable to fetch dependency", w)

/-- An environment over a one-point world: nothing is found locally and every
request fails, so no manifest is found. -/
def envNoManifest : Env Unit Unit Unit Unit where
  localImport := fun _ _ path w => (Except.error ("no match locally: " ++ path), (), w)
  newFileCache := ()
  httpGet := fun _ w => (Except.error "connection refused", w)
  decodeJsonnetFile := fun _ => Except.ok ()
  dependencies := fun _ => ()
  noDependencies := ()
  mkdirAll := fun _ w => (none, w)
  jbEnsure := fun _ _ _ w => (none, w)

/-- An environment over a one-point world: nothing is found locally, and the
server has `https://host/a/b/lib/x.ext` and nothing else, so no manifest is
found. -/
def envRemote : Env Unit Unit Unit Unit where
  localImport := fun _ _ path w => (Except.error ("no match locally: " ++ path), (), w)
  newFileCache := ()
  httpGet := fun url w =>
    if url = "https://host/a/b/lib/x.ext" then
      (Except.ok { StatusCode := 200, Status := "200 OK", Body := Except.ok "local x = 1; x" }, w)
    else
      (Except.ok { StatusCode := 404, Status := "404 Not Found", Body := Except.ok "" }, w)
  decodeJsonnetFile := fun _ => Except.ok ()
  dependencies := fun _ => ()
  noDependencies := ()
  mkdirAll := fun _ w => (none, w)
  jbEnsure := fun _ _ _ w => (none, w)

/-- A fresh importer for the root document `rootFrom` with vendor directory
`vendor`, before any call. -/
def fresh (env : Env Unit Unit Unit Unit) (rootFrom : String) : State Unit Unit :=
  { self := MakeImporter env rootFrom "vendor" [], world := (), calls := [] }

end Jsonnetx

deriving instance DecidableEq for Except

namespace Jsonnetx

/-! ## String order -/

theorem lessChars_irrefl (a : List Char) : lessChars a a = false := by
  induction a with
  | nil => rfl
  | cons c cs ih => simp [lessChars, ih]

theorem lessChars_trans : ∀ (a b c : List Char),
    lessChars a b = true → lessChars b c = true → lessChars a c = true
  | [], [], _, h, _ => by simp [lessChars] at h
  | [], _ :: _, [], _, h => by simp [lessChars] at h
  | [], _ :: _, _ :: _, _, _ => by simp [lessChars]
  | _ :: _, [], _, h, _ => by simp [lessChars] at h
  | _ :: _, _ :: _, [], _, h => by simp [lessChars] at h
  | x :: xs, y :: ys, z :: zs, h₁, h₂ => by
    simp only [lessChars] at h₁ h₂ ⊢
    split at h₁
    · split at h₂
      · simp; left; omega
      · split at h₂
        · simp at h₂
        · have : y.toNat = z.toNat := by omega
          simp; left; omega
    · split at h₁
      · simp at h₁
      · have hxy : x.toNat = y.toNat := by omega
        split at h₂
        · simp; left; omega
        · split at h₂
          · simp at h₂
          · have ih := lessChars_trans xs ys zs h₁ h₂
            have h1 : ¬ x.toNat < z.toNat := by omega
            have h2 : ¬ z.toNat < x.toNat := by omega
            simp [h1, h2, ih]

theorem lessChars_total : ∀ (a b : List Char),
    lessChars a b = true ∨ a = b ∨ lessChars b a = true
  | [], [] => by simp
  | [], _ :: _ => by simp [lessChars]
  | _ :: _, [] => by simp [lessChars]
  | x :: xs, y :: ys => by
    simp only [lessChars]
    by_cases h1 : x.toNat < y.toNat
    · simp [h1]
    · by_cases h2 : y.toNat < x.toNat
      · simp [h1, h2]
      · have hxy : x = y := by
          apply Char.ext
          apply UInt32.ext
          show x.toNat = y.toNat
          omega
        subst hxy
        simp only [h1, if_false]
        rcases lessChars_total xs ys with h | h | h
        · left; exact h
        · right; left; rw [h]
        · right; right; exact h

theorem less_irrefl (a : String) : less a a = false := lessChars_irrefl a.data

theorem less_trans {a b c : String} (h₁ : less a b = true) (h₂ : less b c = true) :
    less a c = true := lessChars_trans _ _ _ h₁ h₂

theorem less_total (a b : String) : less a b = true ∨ a = b ∨ less b a = true := by
  rcases lessChars_total a.data b.data with h | h | h
  · exact Or.inl h
  · exact Or.inr (Or.inl (String.ext h))
  · exact Or.inr (Or.inr h)

theorem less_asymm {a b : String} (h : less a b = true) : less b a = false := by
  cases hb : less b a with
  | false => rfl
  | true =>
    have := less_trans h hb
    rw [less_irrefl] at this
    exact absurd this (by simp)

theorem notLess_total (a b : String) : less b a = false ∨ less a b = false := by
  rcases less_total a b with h | h | h
  · exact Or.inl (less_asymm h)
  · subst h; exact Or.inl (less_irrefl a)
  · exact Or.inr (less_asymm h)

theorem notLess_trans (a b c : String) (hab : less b a = false) (hbc : less c b = false) :
    less c a = false := by
  cases hca : less c a with
  | false => rfl
  | true =>
    rcases less_total b c with h | h | h
    · rw [less_trans h hca] at hab; exact absurd hab (by simp)
    · subst h; rw [hca] at hab; exact absurd hab (by simp)
    · rw [h] at hbc; exact absurd hbc (by simp)

theorem notLess_antisymm (a b : String) (hab : less b a = false) (hba : less a b = false) :
    a = b := by
  rcases less_total a b with h | h | h
  · rw [h] at hba; exact absurd hba (by simp)
  · exact h
  · rw [h] at hab; exact absurd hab (by simp)

theorem sortStrings_perm (keys : List String) : (sortStrings keys).Perm keys :=
  List.perm_insertionSort _ keys

theorem sortStrings_sorted (keys : List String) :
    (sortStrings keys).Sorted (fun a b => less b a = false) := by
  haveI : IsTotal String (fun a b => less b a = false) := ⟨notLess_total⟩
  haveI : IsTrans String (fun a b => less b a = false) := ⟨notLess_trans⟩
  exact List.sorted_insertionSort _ keys

/-- A strictly increasing list of keys is what `sort.Strings` returns on any
rearrangement of it. -/
theorem sortStrings_eq_of_perm_of_increasing {keys ks : List String}
    (hp : ks.Perm keys) (hs : ks.Pairwise (fun a b => less a b = true)) :
    sortStrings keys = ks := by
  haveI : IsAntisymm String (fun a b => less b a = false) := ⟨notLess_antisymm⟩
  apply List.eq_of_perm_of_sorted ((sortStrings_perm keys).trans hp.symm)
    (sortStrings_sorted keys)
  exact hs.imp (fun h => less_asymm h)

/-! ## Unfolding `ExtractManifestTo` -/

theorem len_eq_zero_iff (s : String) : len s = 0 ↔ s = "" := by
  constructor
  · intro h
    apply String.ext
    cases hs : s.data with
    | nil => rfl
    | cons c cs =>
      exfalso
      have h1 : s = String.mk (c :: cs) := String.ext hs
      have hc := Char.utf8Size_pos c
      rw [h1] at h
      simp [len, String.utf8ByteSize, String.utf8ByteSize.go] at h
      omega
  · intro h
    subst h
    rfl

theorem foldl_attach_eq {α β : Type} (f : β → α → β) (l : List α) (b : β) :
    l.attach.foldl (fun acc item => f acc item.1) b = l.foldl f b := by
  have h := List.foldl_map (Subtype.val : {x // x ∈ l} → α) f l.attach b
  rw [List.attach_map_subtype_val] at h
  exact h.symm

theorem sizeOf_index_lt (x : List (String × Value)) (k : String) :
    sizeOf (index x k) < 1 + sizeOf x := by
  induction x with
  | nil => simp [index]
  | cons e rest ih =>
    obtain ⟨k', v⟩ := e
    simp only [index]
    split
    · simp; omega
    · simp; omega

theorem extract_of_manifest (dst : List Value) (obj : Value) (h : IsManifest obj = true) :
    ExtractManifestTo dst obj = dst ++ [obj] := by
  rw [ExtractManifestTo.eq_def]
  simp [h]

theorem extract_map_unfold (dst : List Value) (x : List (String × Value))
    (h : IsManifest (Value.map x) = false) :
    ExtractManifestTo dst (Value.map x) =
      (sortStrings (x.map Prod.fst)).foldl
        (fun dst k => ExtractManifestTo dst (index x k)) dst := by
  rw [ExtractManifestTo.eq_def]
  simp [h]

theorem isManifest_seq (xs : List Value) : IsManifest (Value.seq xs) = false := rfl

theorem extract_seq_unfold (dst : List Value) (xs : List Value) :
    ExtractManifestTo dst (Value.seq xs) =
      xs.foldl (fun dst item => ExtractManifestTo dst item) dst := by
  rw [ExtractManifestTo.eq_def]
  simp only [isManifest_seq, Bool.false_eq_true, if_false]
  exact foldl_attach_eq (fun dst item => ExtractManifestTo dst item) xs dst

theorem extract_null (dst : List Value) : ExtractManifestTo dst Value.null = dst := by
  rw [ExtractManifestTo.eq_def]; simp [IsManifest]

theorem extract_bool (dst : List Value) (b : Bool) :
    ExtractManifestTo dst (Value.bool b) = dst := by
  rw [ExtractManifestTo.eq_def]; simp [IsManifest]

theorem extract_num (dst : List Value) (n : Int) :
    ExtractManifestTo dst (Value.num n) = dst := by
  rw [ExtractManifestTo.eq_def]; simp [IsManifest]

theorem extract_str (dst : List Value) (s : String) :
    ExtractManifestTo dst (Value.str s) = dst := by
  rw [ExtractManifestTo.eq_def]; simp [IsManifest]

theorem extract_nilMap (dst : List Value) : ExtractManifestTo dst Value.nilMap = dst := by
  rw [ExtractManifestTo.eq_def]; simp [IsManifest]

/-! ## The accumulator is only appended to -/

theorem foldl_append_flatMap {α : Type} (f : List Value → α → List Value)
    (g : α → List Value) (l : List α)
    (h : ∀ a ∈ l, ∀ dst, f dst a = dst ++ g a) (dst : List Value) :
    l.foldl f dst = dst ++ l.flatMap g := by
  induction l generalizing dst with
  | nil => simp
  | cons a l ih =>
    simp only [List.foldl_cons, List.flatMap_cons]
    rw [h a (List.mem_cons_self a l), ih (fun b hb => h b (List.mem_cons_of_mem a hb))]
    simp

theorem extract_append_aux (n : Nat) : ∀ (obj : Value), sizeOf obj ≤ n →
    ∀ dst, ExtractManifestTo dst obj = dst ++ ExtractManifestTo [] obj := by
  induction n with
  | zero =>
    intro obj h
    cases obj <;> simp at h
  | succ n ih =>
    intro obj hsz dst
    cases hm : IsManifest obj with
    | true => rw [extract_of_manifest dst obj hm, extract_of_manifest [] obj hm]; simp
    | false =>
      cases obj with
      | null => simp [extract_null]
      | bool b => simp [extract_bool]
      | num k => simp [extract_num]
      | str s => simp [extract_str]
      | nilMap => simp [extract_nilMap]
      | seq xs =>
        have hmem : ∀ a ∈ xs, ∀ dst, ExtractManifestTo dst a = dst ++ ExtractManifestTo [] a := by
          intro a ha
          apply ih
          have := List.sizeOf_lt_of_mem ha
          simp at hsz
          omega
        rw [extract_seq_unfold, extract_seq_unfold,
          foldl_append_flatMap _ (fun a => ExtractManifestTo [] a) xs hmem,
          foldl_append_flatMap _ (fun a => ExtractManifestTo [] a) xs hmem]
        simp
      | map x =>
        have hmem : ∀ k ∈ sortStrings (x.map Prod.fst), ∀ dst,
            ExtractManifestTo dst (index x k) = dst ++ ExtractManifestTo [] (index x k) := by
          intro k _
          apply ih
          have := sizeOf_index_lt x k
          simp at hsz
          omega
        rw [extract_map_unfold _ _ hm, extract_map_unfold _ _ hm,
          foldl_append_flatMap _ (fun k => ExtractManifestTo [] (index x k)) _ hmem,
          foldl_append_flatMap _ (fun k => ExtractManifestTo [] (index x k)) _ hmem]
        simp

theorem extract_append (dst : List Value) (obj : Value) :
    ExtractManifestTo dst obj = dst ++ ExtractManifestTo [] obj :=
  extract_append_aux (sizeOf obj) obj (Nat.le_refl _) dst

theorem extract_seq_flatMap (xs : List Value) :
    ExtractManifestTo [] (Value.seq xs) = xs.flatMap (fun c => ExtractManifestTo [] c) := by
  rw [extract_seq_unfold,
    foldl_append_flatMap _ (fun a => ExtractManifestTo [] a) xs
      (fun a _ dst => extract_append dst a)]
  simp

theorem extract_map_flatMap (x : List (String × Value))
    (h : IsManifest (Value.map x) = false) :
    ExtractManifestTo [] (Value.map x) =
      (sortStrings (x.map Prod.fst)).flatMap (fun k => ExtractManifestTo [] (index x k)) := by
  rw [extract_map_unfold _ _ h,
    foldl_append_flatMap _ (fun k => ExtractManifestTo [] (index x k)) _
      (fun k _ dst => extract_append dst (index x k))]
  simp

/-! ## `filepath.Dir` shortens a path -/

/-- The length of the elements of a path, counting one separator for each. -/
theorem splitSlash_weight (cs : List Char) :
    ((splitSlash cs).map (fun seg => seg.length + 1)).sum = cs.length + 1 := by
  induction cs with
  | nil => rfl
  | cons c cs ih =>
    unfold splitSlash
    by_cases hc : c = '/'
    · rw [if_pos hc]
      simp only [List.map_cons, List.sum_cons, List.length_nil, List.length_cons, ih]
      omega
    · rw [if_neg hc]
      cases hs : splitSlash cs with
      | nil => rw [hs] at ih; simp at ih
      | cons seg rest =>
        rw [hs] at ih
        simp only [List.map_cons, List.sum_cons, List.length_cons] at ih ⊢
        omega

theorem splitSlash_ne_nil (cs : List Char) : splitSlash cs ≠ [] := by
  intro h
  have := splitSlash_weight cs
  rw [h] at this
  simp at this

theorem splitSlash_append_slash (cs : List Char) :
    splitSlash (cs ++ ['/']) = splitSlash cs ++ [[]] := by
  induction cs with
  | nil => rfl
  | cons c cs ih =>
    simp only [List.cons_append]
    unfold splitSlash
    by_cases hc : c = '/'
    · rw [if_pos hc, if_pos hc, ih]
      rfl
    · rw [if_neg hc, if_neg hc, ih]
      cases hs : splitSlash cs with
      | nil => exact absurd hs (splitSlash_ne_nil cs)
      | cons seg rest => rfl

theorem cleanElems_weight (rooted : Bool) (segs : List (List Char)) :
    ∀ out : List (List Char),
      ((cleanElems rooted out segs).map (fun seg => seg.length + 1)).sum ≤
        (out.map (fun seg => seg.length + 1)).sum +
          ((segs.filter (fun seg => seg ≠ [])).map (fun seg => seg.length + 1)).sum := by
  induction segs with
  | nil => intro out; simp [cleanElems]
  | cons seg segs ih =>
    intro out
    unfold cleanElems
    by_cases h0 : seg = []
    · rw [if_pos (Or.inl h0)]
      have := ih out
      simp only [h0, List.filter_cons, ne_eq, not_true_eq_false, decide_False,
        Bool.false_eq_true, if_false]
      exact this
    · have hf : (List.filter (fun seg => decide (seg ≠ [])) (seg :: segs)) =
          seg :: List.filter (fun seg => decide (seg ≠ [])) segs := by
        simp [List.filter_cons, h0]
      rw [hf]
      simp only [List.map_cons, List.sum_cons]
      by_cases h1 : seg = ['.']
      · rw [if_pos (Or.inr h1)]
        have := ih out
        omega
      · rw [if_neg (by simp [h0, h1])]
        by_cases h2 : seg = ['.', '.']
        · rw [if_pos h2]
          cases out with
          | nil =>
            dsimp only
            cases rooted with
            | true =>
              have := ih []
              simp only [if_true]
              omega
            | false =>
              have := ih [seg]
              simp only [Bool.false_eq_true, if_false]
              simp only [List.map_cons, List.sum_cons, List.map_nil, List.sum_nil] at this ⊢
              omega
          | cons top rest =>
            dsimp only
            by_cases h3 : top ≠ ['.', '.']
            · rw [if_pos h3]
              have := ih rest
              simp only [List.map_cons, List.sum_cons]
              omega
            · rw [if_neg h3]
              have := ih (seg :: top :: rest)
              simp only [List.map_cons, List.sum_cons] at this ⊢
              omega
        · rw [if_neg h2]
          have := ih (seg :: out)
          simp only [List.map_cons, List.sum_cons] at this ⊢
          omega

theorem joinSlash_length (l : List (List Char)) (h : l ≠ []) :
    (joinSlash l).length + 1 = (l.map (fun seg => seg.length + 1)).sum := by
  induction l with
  | nil => exact absurd rfl h
  | cons seg rest ih =>
    cases rest with
    | nil => simp [joinSlash]
    | cons seg' rest' =>
      have := ih (by simp)
      simp only [joinSlash, List.length_append, List.length_cons, List.map_cons,
        List.sum_cons] at this ⊢
      omega

theorem filter_weight_le (l : List (List Char)) :
    ((l.filter (fun seg => seg ≠ [])).map (fun seg => seg.length + 1)).sum ≤
      (l.map (fun seg => seg.length + 1)).sum :=
  (List.filter_sublist l).map _ |>.sum_le_sum (fun _ _ => Nat.zero_le _)

theorem cleanElems_weight_trailing (rooted : Bool) (cs : List Char) :
    ((cleanElems rooted [] (splitSlash (cs ++ ['/']))).map (fun seg => seg.length + 1)).sum ≤
      cs.length + 1 := by
  have h := cleanElems_weight rooted (splitSlash (cs ++ ['/'])) []
  rw [splitSlash_append_slash, List.filter_append] at h
  have hf : List.filter (fun seg => decide (seg ≠ [])) [([] : List Char)] = [] := rfl
  rw [hf, List.append_nil] at h
  have h2 := filter_weight_le (splitSlash cs)
  rw [splitSlash_weight] at h2
  simp only [List.map_nil, List.sum_nil, Nat.zero_add] at h
  rw [splitSlash_append_slash]
  exact Nat.le_trans h h2

theorem joinSlash_reverse_length (out : List (List Char)) (h : out ≠ []) :
    (joinSlash out.reverse).length + 1 = (out.map (fun seg => seg.length + 1)).sum := by
  rw [joinSlash_length out.reverse (by simpa using h), List.map_reverse, List.sum_reverse]

/-- Cleaning a path that ends with a separator gives `.`, `/`, or something
shorter. -/
theorem cleanChars_trailing_slash (cs : List Char) :
    cleanChars (cs ++ ['/']) = ['.'] ∨ cleanChars (cs ++ ['/']) = ['/'] ∨
      (cleanChars (cs ++ ['/'])).length < (cs ++ ['/']).length := by
  cases cs with
  | nil => exact Or.inr (Or.inl (by decide))
  | cons c r =>
    simp only [List.cons_append, List.length_cons, List.length_append, List.length_nil]
    unfold cleanChars
    dsimp only
    by_cases hc : c = '/'
    · subst hc
      simp only [decide_True, if_true]
      have hsplit : splitSlash ('/' :: (r ++ ['/'])) = [] :: splitSlash (r ++ ['/']) := by
        rw [splitSlash]; simp
      have hclean : cleanElems true [] ([] :: splitSlash (r ++ ['/'])) =
          cleanElems true [] (splitSlash (r ++ ['/'])) := by
        rw [cleanElems]; simp
      rw [hsplit, hclean]
      have hw := cleanElems_weight_trailing true r
      cases hout : cleanElems true [] (splitSlash (r ++ ['/'])) with
      | nil => exact Or.inr (Or.inl rfl)
      | cons a l =>
        rw [hout] at hw
        have hj := joinSlash_reverse_length (a :: l) (by simp)
        refine Or.inr (Or.inr ?_)
        simp only [List.length_cons]
        omega
    · simp only [hc, decide_False, Bool.false_eq_true, if_false]
      have hw := cleanElems_weight_trailing false (c :: r)
      simp only [List.cons_append, List.length_cons] at hw
      cases hout : cleanElems false [] (splitSlash (c :: (r ++ ['/']))) with
      | nil => exact Or.inl (by simp [joinSlash])
      | cons a l =>
        rw [hout] at hw
        have hj := joinSlash_reverse_length (a :: l) (by simp)
        by_cases hb : joinSlash (a :: l).reverse = []
        · exact Or.inl (by rw [if_pos hb])
        · refine Or.inr (Or.inr ?_)
          rw [if_neg hb]
          omega

theorem dropWhile_head_or_nil (l : List Char) :
    l.dropWhile (fun c => c ≠ '/') = [] ∨
      ∃ tl, l.dropWhile (fun c => c ≠ '/') = '/' :: tl := by
  induction l with
  | nil => exact Or.inl rfl
  | cons a l ih =>
    by_cases ha : a = '/'
    · subst ha
      exact Or.inr ⟨l, by simp [List.dropWhile]⟩
    · have : (a :: l).dropWhile (fun c => c ≠ '/') = l.dropWhile (fun c => c ≠ '/') := by
        simp [List.dropWhile, ha]
      rw [this]
      exact ih

theorem dropWhile_length_le (l : List Char) :
    (l.dropWhile (fun c => c ≠ '/')).length ≤ l.length :=
  (List.dropWhile_sublist _).length_le

/-- A path other than `.` and `/` has a directory that is `.`, `/`, or shorter
than the path. -/
theorem filepathDir_shrinks (p : String) :
    filepathDir p = "." ∨ filepathDir p = "/" ∨ (filepathDir p).length < p.length := by
  unfold filepathDir
  have hlen := dropWhile_length_le p.data.reverse
  rw [List.length_reverse] at hlen
  rcases dropWhile_head_or_nil p.data.reverse with h | ⟨tl, h⟩
  · rw [h]
    exact Or.inl rfl
  · rw [h] at hlen ⊢
    rw [List.reverse_cons]
    have hlen' : (tl.reverse ++ ['/']).length ≤ p.length := by
      simp only [List.length_append, List.length_reverse, List.length_cons, List.length_nil]
      simp only [List.length_cons] at hlen
      exact hlen
    rcases cleanChars_trailing_slash tl.reverse with h1 | h1 | h1
    · exact Or.inl (by rw [h1])
    · exact Or.inr (Or.inl (by rw [h1]))
    · refine Or.inr (Or.inr ?_)
      show (cleanChars (tl.reverse ++ ['/'])).length < p.length
      omega

/-! ## The manifest lookup -/

section Resolve

variable {W FC JF LS : Type} (env : Env W FC JF LS)

/-- One more iteration allowed changes nothing once the bound exceeds the
length of the path: the loop of `resolveJsonnetFile` ends by its own condition
before the bound is used up. -/
theorem resolveLoop_fuel (fuel : Nat) : ∀ (base : URL) (s : State W FC),
    (base.Path = "." ∨ base.Path = "/" ∨ base.Path.length < fuel) →
    resolveLoop env (fuel + 1) base s = resolveLoop env fuel base s := by
  induction fuel with
  | zero =>
    intro base s h
    have hc : ¬ (base.Path ≠ "." ∧ base.Path ≠ "/") := by
      rcases h with h | h | h
      · exact fun hn => hn.1 h
      · exact fun hn => hn.2 h
      · exact absurd h (Nat.not_lt_zero _)
    rw [resolveLoop.eq_def, resolveLoop.eq_def env 0]
    dsimp only
    rw [if_neg hc, if_neg hc]
  | succ n ih =>
    intro base s h
    rw [resolveLoop.eq_def, resolveLoop.eq_def env (n + 1)]
    dsimp only
    by_cases hc : base.Path ≠ "." ∧ base.Path ≠ "/"
    · rw [if_pos hc, if_pos hc]
      have hlen : base.Path.length < n + 1 := by
        rcases h with h | h | h
        · exact absurd h hc.1
        · exact absurd h hc.2
        · exact h
      have hdir : filepathDir base.Path = "." ∨ filepathDir base.Path = "/" ∨
          (filepathDir base.Path).length < n := by
        rcases filepathDir_shrinks base.Path with h1 | h1 | h1
        · exact Or.inl h1
        · exact Or.inr (Or.inl h1)
        · exact Or.inr (Or.inr (by omega))
      cases hj : (readFile env base "jsonnetfile.json" s).1 with
      | error e =>
        dsimp only
        exact ih { base with Path := filepathDir base.Path } _ hdir
      | ok jf => rfl
    · rw [if_neg hc, if_neg hc]

/-- The bound `resolveJsonnetFile` passes to the loop is enough: any larger
bound gives the same result. -/
theorem resolveLoop_enough (base : URL) (s : State W FC) (k : Nat) :
    resolveLoop env (base.Path.length + 1 + k) base s =
      resolveLoop env (base.Path.length + 1) base s := by
  induction k with
  | zero => rfl
  | succ k ih =>
    rw [← ih]
    exact resolveLoop_fuel env (base.Path.length + 1 + k) base s
      (Or.inr (Or.inr (by omega)))

/-- What an operation of the lookup may change: it keeps the importer and
adds only HTTP requests to the record. -/
theorem readFile_frame (base : URL) (name : String) (s : State W FC) :
    (readFile env base name s).2.self = s.self ∧
    ∃ urls : List String,
      (readFile env base name s).2.calls = s.calls ++ urls.map Event.httpGet := by
  unfold readFile
  dsimp only
  refine ⟨?_, [({ base with Path := filepathJoin [base.Path, name] } : URL).String], ?_⟩
  · split
    · rfl
    · split
      · rfl
      · split <;> rfl
  · split
    · rfl
    · split
      · rfl
      · split <;> rfl

theorem resolveLoop_frame (fuel : Nat) : ∀ (base : URL) (s : State W FC),
    (resolveLoop env fuel base s).2.self = s.self ∧
    ∃ urls : List String,
      (resolveLoop env fuel base s).2.calls = s.calls ++ urls.map Event.httpGet := by
  have hafter : ∀ (base : URL) (s : State W FC)
      (r : Except GoError (JF × LS) × State W FC),
      r = (match (readFile env base "jsonnetfile.json" s).1 with
        | Except.error _ =>
          (Except.error "cannot found jsonnetfile.json",
            (readFile env base "jsonnetfile.json" s).2)
        | Except.ok jf =>
          match (readFile env base "jsonnetfile.lock.json"
              (readFile env base "jsonnetfile.json" s).2).1 with
          | Except.error _ => (Except.ok (jf, env.noDependencies),
              (readFile env base "jsonnetfile.lock.json"
                (readFile env base "jsonnetfile.json" s).2).2)
          | Except.ok lf => (Except.ok (jf, env.dependencies lf),
              (readFile env base "jsonnetfile.lock.json"
                (readFile env base "jsonnetfile.json" s).2).2)) →
      r.2.self = s.self ∧ ∃ urls : List String, r.2.calls = s.calls ++ urls.map Event.httpGet := by
    intro base s r hr
    obtain ⟨h1, u1, hu1⟩ := readFile_frame env base "jsonnetfile.json" s
    obtain ⟨h2, u2, hu2⟩ := readFile_frame env base "jsonnetfile.lock.json"
      (readFile env base "jsonnetfile.json" s).2
    have hboth : (readFile env base "jsonnetfile.lock.json"
        (readFile env base "jsonnetfile.json" s).2).2.self = s.self ∧
        ∃ urls : List String, (readFile env base "jsonnetfile.lock.json"
          (readFile env base "jsonnetfile.json" s).2).2.calls =
            s.calls ++ urls.map Event.httpGet :=
      ⟨h2.trans h1, u1 ++ u2, by rw [hu2, hu1, List.map_append, List.append_assoc]⟩
    subst hr
    split
    · exact ⟨h1, u1, hu1⟩
    · split
      · exact hboth
      · exact hboth
  induction fuel with
  | zero =>
    intro base s
    rw [resolveLoop.eq_def]
    dsimp only
    split
    · exact hafter base s _ rfl
    · exact hafter base s _ rfl
  | succ n ih =>
    intro base s
    rw [resolveLoop.eq_def]
    dsimp only
    split
    · obtain ⟨h1, u1, hu1⟩ := readFile_frame env base "jsonnetfile.json" s
      cases hj : (readFile env base "jsonnetfile.json" s).1 with
      | error e =>
        dsimp only
        obtain ⟨h2, u2, hu2⟩ := ih { base with Path := filepathDir base.Path }
          (readFile env base "jsonnetfile.json" s).2
        exact ⟨h2.trans h1, u1 ++ u2, by rw [hu2, hu1, List.map_append, List.append_assoc]⟩
      | ok jf =>
        have := hafter base s _ rfl
        rw [hj] at this
        exact this
    · exact hafter base s _ rfl

theorem resolveJsonnetFile_frame (s : State W FC) :
    (resolveJsonnetFile env s).2.self = s.self ∧
    ∃ urls : List String,
      (resolveJsonnetFile env s).2.calls = s.calls ++ urls.map Event.httpGet := by
  unfold resolveJsonnetFile
  split
  · exact ⟨rfl, [], by simp⟩
  · exact resolveLoop_frame env _ _ s

end Resolve

/-! ## Importer: how each operation moves the state -/

section Importer

variable {W FC JF LS : Type} (env : Env W FC JF LS)

/-- The outcomes of `httpImport`: it stops before the lookup with the state
untouched, answers from the cache with the state untouched, fails after one
request with only the world and the record changed, or succeeds after one
request and stores the body under the URL it fetched. -/
theorem httpImport_cases (from_ path : String) (s : State W FC) :
    (∃ e, foundAt s.self.rootFrom from_ path = Except.error e ∧
        httpImport env from_ path s = (Except.error e, s)) ∨
    (∃ u c, foundAt s.self.rootFrom from_ path = Except.ok u ∧ s.self.cache u = some c ∧
        httpImport env from_ path s = (Except.ok (c, u), s)) ∨
    (∃ u e, foundAt s.self.rootFrom from_ path = Except.ok u ∧ s.self.cache u = none ∧
        httpImport env from_ path s =
          (Except.error e,
            { s with world := (env.httpGet u s.world).2,
                     calls := s.calls ++ [Event.httpGet u] })) ∨
    (∃ u bs, foundAt s.self.rootFrom from_ path = Except.ok u ∧ s.self.cache u = none ∧
        httpImport env from_ path s =
          (Except.ok (MakeContents bs, u),
            { self := { s.self with cache := cacheSet s.self.cache u (MakeContents bs) },
              world := (env.httpGet u s.world).2,
              calls := s.calls ++ [Event.httpGet u] })) := by
  unfold httpImport foundAt
  generalize (if len from_ = 0 then s.self.rootFrom else from_) = src
  dsimp only
  cases hp : urlParse src with
  | error e => exact Or.inl ⟨_, rfl, rfl⟩
  | ok fromURL =>
    dsimp only
    by_cases hs : fromURL.Scheme ≠ "http" ∧ fromURL.Scheme ≠ "https"
    · rw [if_pos hs, if_pos hs]
      exact Or.inl ⟨_, rfl, rfl⟩
    · rw [if_neg hs, if_neg hs]
      generalize ({ fromURL with Path := filepathJoin [filepathDir fromURL.Path, path] } : URL).String = u
      cases hc : s.self.cache u with
      | some c => exact Or.inr (Or.inl ⟨u, c, rfl, hc, rfl⟩)
      | none =>
        dsimp only
        cases hg : (env.httpGet u s.world).1 with
        | error e => exact Or.inr (Or.inr (Or.inl ⟨u, e, rfl, hc, rfl⟩))
        | ok resp =>
          dsimp only
          by_cases hst : resp.StatusCode ≠ StatusOK
          · rw [if_pos hst]
            exact Or.inr (Or.inr (Or.inl ⟨u, _, rfl, hc, rfl⟩))
          · rw [if_neg hst]
            cases hb : resp.Body with
            | error e => exact Or.inr (Or.inr (Or.inl ⟨u, e, rfl, hc, rfl⟩))
            | ok bs => exact Or.inr (Or.inr (Or.inr ⟨u, bs, rfl, hc, rfl⟩))

theorem httpImport_hit (from_ path : String) (s : State W FC) (u : String) (c : Contents)
    (hu : foundAt s.self.rootFrom from_ path = Except.ok u) (hc : s.self.cache u = some c) :
    httpImport env from_ path s = (Except.ok (c, u), s) := by
  rcases httpImport_cases env from_ path s with ⟨e, hf, _⟩ | ⟨u', c', hf, hc', h⟩ |
    ⟨u', e, hf, hc', _⟩ | ⟨u', bs, hf, hc', _⟩
  · rw [hu] at hf; cases hf
  · rw [hu] at hf; cases hf
    rw [hc] at hc'; cases hc'
    exact h
  · rw [hu] at hf; cases hf
    rw [hc] at hc'; cases hc'
  · rw [hu] at hf; cases hf
    rw [hc] at hc'; cases hc'

theorem cacheSet_keeps (cache : String → Option Contents) (u : String) (c : Contents)
    (hu : cache u = none) (k : String) (v : Contents) (hk : cache k = some v) :
    cacheSet cache u c k = some v := by
  unfold cacheSet
  split
  · rename_i hku
    rw [hku, hu] at hk
    cases hk
  · exact hk

/-- A remote attempt keeps the fields other than `cache`, adds only HTTP
requests to the record, and keeps every cache entry. -/
theorem httpImport_frame (from_ path : String) (s : State W FC) :
    (httpImport env from_ path s).2.self.bundled = s.self.bundled ∧
    (httpImport env from_ path s).2.self.rootFrom = s.self.rootFrom ∧
    (∀ k v, s.self.cache k = some v → (httpImport env from_ path s).2.self.cache k = some v) ∧
    countResolve (httpImport env from_ path s).2.calls = countResolve s.calls ∧
    countEnsure (httpImport env from_ path s).2.calls = countEnsure s.calls := by
  rcases httpImport_cases env from_ path s with ⟨e, _, h⟩ | ⟨u, c, _, _, h⟩ |
    ⟨u, e, _, _, h⟩ | ⟨u, bs, _, hc, h⟩
  · rw [h]; exact ⟨rfl, rfl, fun _ _ hk => hk, rfl, rfl⟩
  · rw [h]; exact ⟨rfl, rfl, fun _ _ hk => hk, rfl, rfl⟩
  · rw [h]
    exact ⟨rfl, rfl, fun _ _ hk => hk, by simp [countResolve], by simp [countEnsure]⟩
  · rw [h]
    exact ⟨rfl, rfl, fun k v hk => cacheSet_keeps _ u _ hc k v hk,
      by simp [countResolve], by simp [countEnsure]⟩

theorem httpImport_error_state (from_ path : String) (s : State W FC) (e : GoError)
    (h : (httpImport env from_ path s).1 = Except.error e) :
    (httpImport env from_ path s).2.self = s.self := by
  rcases httpImport_cases env from_ path s with ⟨e', _, h'⟩ | ⟨u, c, _, _, h'⟩ |
    ⟨u, e', _, _, h'⟩ | ⟨u, bs, _, hc, h'⟩
  · rw [h']
  · rw [h'] at h; cases h
  · rw [h']
  · rw [h'] at h; cases h

theorem httpImport_ok_cache (from_ path : String) (s : State W FC) (r : Contents × String)
    (h : (httpImport env from_ path s).1 = Except.ok r) :
    (httpImport env from_ path s).2.self.cache r.2 = some r.1 ∧
    foundAt s.self.rootFrom from_ path = Except.ok r.2 := by
  rcases httpImport_cases env from_ path s with ⟨e', _, h'⟩ | ⟨u, c, hf, hc, h'⟩ |
    ⟨u, e', _, _, h'⟩ | ⟨u, bs, hf, hc, h'⟩
  · rw [h'] at h; cases h
  · rw [h'] at h ⊢; cases h
    exact ⟨hc, hf⟩
  · rw [h'] at h; cases h
  · rw [h'] at h ⊢; cases h
    exact ⟨by simp [cacheSet], hf⟩

theorem ensureVendor_bundled (s : State W FC) (h : s.self.bundled = true) :
    ensureVendor env s = (none, s) := by
  simp [ensureVendor, h]

/-- The run of `ensureVendor` when `bundled` is unset: the record grows by
the start of the lookup, the requests of the lookup, and then nothing, the
directory creation, or the directory creation and the vendoring tool; the
importer keeps its cache and root and ends with `bundled` set. -/
theorem ensureVendor_unbundled (s : State W FC) (hb : s.self.bundled = false) :
    ∃ (urls : List String) (tail : List Event),
      (ensureVendor env s).2.calls =
        s.calls ++ Event.resolveJsonnetFile :: (urls.map Event.httpGet ++ tail) ∧
      (tail = [] ∨
        tail = [Event.mkdirAll (filepathJoin [s.self.vendorPath, ".tmp"])] ∨
        tail = [Event.mkdirAll (filepathJoin [s.self.vendorPath, ".tmp"]),
          Event.jbEnsure s.self.vendorPath]) ∧
      (ensureVendor env s).2.self.bundled = true ∧
      (ensureVendor env s).2.self.cache = s.self.cache ∧
      (ensureVendor env s).2.self.rootFrom = s.self.rootFrom := by
  obtain ⟨hself, urls, hcalls⟩ := resolveJsonnetFile_frame env
    { s with calls := s.calls ++ [Event.resolveJsonnetFile] }
  have hcalls' : (resolveJsonnetFile env
      { s with calls := s.calls ++ [Event.resolveJsonnetFile] }).2.calls =
        s.calls ++ Event.resolveJsonnetFile :: (urls.map Event.httpGet ++ []) := by
    rw [hcalls]; simp
  unfold ensureVendor
  rw [hb]
  simp only [Bool.false_eq_true, if_false]
  generalize resolveJsonnetFile env
    { s with calls := s.calls ++ [Event.resolveJsonnetFile] } = r at hself hcalls'
  obtain ⟨res, t⟩ := r
  simp only at hself hcalls'
  cases res with
  | error e =>
    exact ⟨urls, [], hcalls', Or.inl rfl, rfl, by simp [setBundled, hself],
      by simp [setBundled, hself]⟩
  | ok q =>
    obtain ⟨jf, ls⟩ := q
    dsimp only
    have hv : t.self.vendorPath = s.self.vendorPath := by rw [hself]
    split
    · refine ⟨urls, [Event.mkdirAll (filepathJoin [s.self.vendorPath, ".tmp"])], ?_,
        Or.inr (Or.inl rfl), rfl, by simp [setBundled, hself], by simp [setBundled, hself]⟩
      simp [setBundled, hcalls', hv]
    · split
      · refine ⟨urls, [Event.mkdirAll (filepathJoin [s.self.vendorPath, ".tmp"]),
          Event.jbEnsure s.self.vendorPath], ?_,
          Or.inr (Or.inr rfl), rfl, by simp [setBundled, hself], by simp [setBundled, hself]⟩
        simp [setBundled, hcalls', hv]
      · refine ⟨urls, [Event.mkdirAll (filepathJoin [s.self.vendorPath, ".tmp"]),
          Event.jbEnsure s.self.vendorPath], ?_,
          Or.inr (Or.inr rfl), rfl, by simp [setBundled, hself], by simp [setBundled, hself]⟩
        simp [setBundled, hcalls', hv]

theorem countResolve_httpGets (urls : List String) :
    countResolve (urls.map Event.httpGet) = 0 := by
  induction urls with
  | nil => rfl
  | cons u urls ih =>
    simp only [countResolve, List.map_cons] at ih ⊢
    rw [List.count_cons, ih]
    simp

theorem countEnsure_httpGets (urls : List String) :
    countEnsure (urls.map Event.httpGet) = 0 := by
  induction urls with
  | nil => rfl
  | cons u urls ih =>
    simp only [countEnsure, List.map_cons] at ih ⊢
    rw [List.filter_cons]
    simp only [Bool.false_eq_true, if_false]
    exact ih

theorem countLocal_httpGets (f p : String) (urls : List String) :
    countLocal f p (urls.map Event.httpGet) = 0 := by
  induction urls with
  | nil => rfl
  | cons u urls ih =>
    simp only [countLocal, List.map_cons] at ih ⊢
    rw [List.count_cons, ih]
    simp

/-- Whatever `ensureVendor` does, it leaves `bundled` set, keeps the cache and
`rootFrom`, and looks up the manifest and runs the tool only when `bundled`
was not set. -/
theorem ensureVendor_frame (s : State W FC) :
    (ensureVendor env s).2.self.bundled = true ∧
    (ensureVendor env s).2.self.cache = s.self.cache ∧
    (ensureVendor env s).2.self.rootFrom = s.self.rootFrom ∧
    countResolve (ensureVendor env s).2.calls =
      countResolve s.calls + (if s.self.bundled then 0 else 1) ∧
    countEnsure (ensureVendor env s).2.calls ≤
      countEnsure s.calls + (if s.self.bundled then 0 else 1) := by
  cases hb : s.self.bundled with
  | true =>
    rw [ensureVendor_bundled env s hb]
    simp [hb]
  | false =>
    obtain ⟨urls, tail, hcalls, htail, h1, h2, h3⟩ := ensureVendor_unbundled env s hb
    refine ⟨h1, h2, h3, ?_, ?_⟩
    · rw [hcalls]
      have hu := countResolve_httpGets urls
      simp only [countResolve] at hu ⊢
      simp only [List.count_append, List.count_cons, hu, Bool.false_eq_true, if_false]
      rcases htail with h | h | h <;> rw [h] <;> simp
    · rw [hcalls]
      have hu := countEnsure_httpGets urls
      simp only [countEnsure] at hu ⊢
      simp only [List.filter_append, List.filter_cons, List.length_append, hu,
        Bool.false_eq_true, if_false]
      rcases htail with h | h | h <;> rw [h] <;> simp

end Importer

section ImporterRuns

variable {W FC JF LS : Type} (env : Env W FC JF LS)

theorem Advances.refl (s : State W FC) : Advances s s :=
  ⟨rfl, fun h => h, fun _ _ h => h, Nat.le_refl _, Nat.le_refl _⟩

theorem Advances.trans {s t u : State W FC} (h₁ : Advances s t) (h₂ : Advances t u) :
    Advances s u :=
  ⟨h₂.1.trans h₁.1, fun h => h₂.2.1 (h₁.2.1 h), fun k v h => h₂.2.2.1 k v (h₁.2.2.1 k v h),
    Nat.le_trans h₂.2.2.2.1 h₁.2.2.2.1, Nat.le_trans h₂.2.2.2.2 h₁.2.2.2.2⟩

theorem localImport_advances (from_ path : String) (s : State W FC) :
    Advances s (localImport env from_ path s).2 := by
  refine ⟨rfl, fun h => h, fun _ _ h => h, ?_, ?_⟩
  · simp [resolveBudget, localImport, countResolve]
  · simp [ensureBudget, localImport, countEnsure]

theorem httpImport_advances (from_ path : String) (s : State W FC) :
    Advances s (httpImport env from_ path s).2 := by
  obtain ⟨hb, hr, hc, hcr, hce⟩ := httpImport_frame env from_ path s
  refine ⟨hr, fun h => by rw [hb]; exact h, hc, ?_, ?_⟩
  · simp [resolveBudget, hb, hcr]
  · simp [ensureBudget, hb, hce]

theorem ensureVendor_advances (s : State W FC) : Advances s (ensureVendor env s).2 := by
  obtain ⟨hb, hc, hr, hcr, hce⟩ := ensureVendor_frame env s
  refine ⟨hr, fun _ => hb, fun k v h => by rw [hc]; exact h, ?_, ?_⟩
  · simp [resolveBudget, hb, hcr]
  · simp only [ensureBudget, hb, if_true]
    omega

theorem beforeVendor_advances (from_ path : String) (s : State W FC) :
    Advances s (beforeVendor env from_ path s) := by
  unfold beforeVendor
  split
  · exact (localImport_advances env from_ path s).trans (httpImport_advances env from_ path _)
  · exact localImport_advances env from_ path s

/-- The four ways through `Import`. -/
theorem Import_cases (from_ path : String) (s : State W FC) :
    (∃ r, (localImport env from_ path s).1 = Except.ok r ∧
        Import env from_ path s = (Except.ok r, (localImport env from_ path s).2)) ∨
    (∃ r, (len from_ = 0 ∨ hasPrefix from_ "http" = true) ∧
        (httpImport env from_ path (localImport env from_ path s).2).1 = Except.ok r ∧
        Import env from_ path s = (Except.ok r, beforeVendor env from_ path s)) ∨
    (∃ e, (ensureVendor env (beforeVendor env from_ path s)).1 = some e ∧
        Import env from_ path s =
          (Except.error e, (ensureVendor env (beforeVendor env from_ path s)).2)) ∨
    ((ensureVendor env (beforeVendor env from_ path s)).1 = none ∧
        Import env from_ path s =
          localImport env from_ path (ensureVendor env (beforeVendor env from_ path s)).2) := by
  unfold Import beforeVendor
  dsimp only
  cases hl : (localImport env from_ path s).1 with
  | ok r => exact Or.inl ⟨r, rfl, rfl⟩
  | error err =>
    dsimp only
    by_cases hc : len from_ = 0 ∨ hasPrefix from_ "http" = true
    · rw [if_pos hc, if_pos hc]
      cases hh : (httpImport env from_ path (localImport env from_ path s).2).1 with
      | ok r => exact Or.inr (Or.inl ⟨r, hc, rfl, rfl⟩)
      | error e =>
        dsimp only
        cases hv : (ensureVendor env (httpImport env from_ path (localImport env from_ path s).2).2).1 with
        | some e => exact Or.inr (Or.inr (Or.inl ⟨e, rfl, rfl⟩))
        | none => exact Or.inr (Or.inr (Or.inr ⟨rfl, rfl⟩))
    · rw [if_neg hc, if_neg hc]
      dsimp only
      cases hv : (ensureVendor env (localImport env from_ path s).2).1 with
      | some e => exact Or.inr (Or.inr (Or.inl ⟨e, rfl, rfl⟩))
      | none => exact Or.inr (Or.inr (Or.inr ⟨rfl, rfl⟩))

theorem Import_advances (from_ path : String) (s : State W FC) :
    Advances s (Import env from_ path s).2 := by
  rcases Import_cases env from_ path s with ⟨r, _, h⟩ | ⟨r, _, _, h⟩ | ⟨e, _, h⟩ | ⟨_, h⟩
  · rw [h]; exact localImport_advances env from_ path s
  · rw [h]; exact beforeVendor_advances env from_ path s
  · rw [h]
    exact (beforeVendor_advances env from_ path s).trans (ensureVendor_advances env _)
  · rw [h]
    exact ((beforeVendor_advances env from_ path s).trans (ensureVendor_advances env _)).trans
      (localImport_advances env from_ path _)

theorem runImports_advances (reqs : List (String × String)) (s : State W FC) :
    Advances s (runImports env reqs s) := by
  induction reqs generalizing s with
  | nil => exact Advances.refl s
  | cons r reqs ih =>
    exact (Import_advances env r.1 r.2 s).trans (ih (Import env r.1 r.2 s).2)

end ImporterRuns

/-! ## Manifest extraction: the claims -/

theorem manifest_shape (x : Value) :
    IsManifest x = true ↔
      ∃ obj a k, x = Value.map obj ∧
        index obj "apiVersion" = Value.str a ∧ 1 ≤ len a ∧
        index obj "kind" = Value.str k ∧ 1 ≤ len k := by
  constructor
  · intro h
    cases x with
    | map obj =>
      unfold IsManifest at h
      dsimp only at h
      split at h
      · rename_i a ha
        split at h
        · cases h
        · rename_i hla
          split at h
          · rename_i k hk
            split at h
            · cases h
            · rename_i hlk
              exact ⟨obj, a, k, rfl, ha, by omega, hk, by omega⟩
          · cases h
      · cases h
    | null => cases h
    | bool b => cases h
    | num n => cases h
    | str s => cases h
    | seq xs => cases h
    | nilMap => cases h
  · rintro ⟨obj, a, k, rfl, ha, hla, hk, hlk⟩
    unfold IsManifest
    dsimp only
    rw [ha]
    dsimp only
    rw [if_neg (by omega), hk]
    dsimp only
    rw [if_neg (by omega)]

/-- In a map with distinct keys, indexing by the key of an entry gives the
value of that entry. -/
theorem index_of_mem {x : List (String × Value)} (hnd : (x.map Prod.fst).Nodup)
    {k : String} {v : Value} (h : (k, v) ∈ x) : index x k = v := by
  induction x with
  | nil => cases h
  | cons e rest ih =>
    obtain ⟨k', v'⟩ := e
    simp only [List.map_cons, List.nodup_cons] at hnd
    simp only [index]
    rcases List.mem_cons.1 h with h | h
    · cases h
      simp
    · have hne : k' ≠ k := by
        intro hk
        subst hk
        exact hnd.1 (List.mem_map.2 ⟨(k', v), h, rfl⟩)
      rw [if_neg hne]
      exact ih hnd.2 h

theorem nodup_of_increasing {ks : List String}
    (hs : ks.Pairwise (fun a b => less a b = true)) : ks.Nodup := by
  refine hs.imp ?_
  intro a b hab heq
  subst heq
  rw [less_irrefl] at hab
  cases hab

theorem extract_mem_isManifest_aux (n : Nat) : ∀ (tree : Value), sizeOf tree ≤ n →
    ∀ m ∈ ExtractManifestTo [] tree, IsManifest m = true := by
  induction n with
  | zero =>
    intro tree h
    cases tree <;> simp at h
  | succ n ih =>
    intro tree hsz m hm
    cases hman : IsManifest tree with
    | true =>
      rw [extract_of_manifest [] tree hman] at hm
      simp only [List.nil_append, List.mem_singleton] at hm
      rw [hm]; exact hman
    | false =>
      cases tree with
      | null => rw [extract_null] at hm; cases hm
      | bool b => rw [extract_bool] at hm; cases hm
      | num k => rw [extract_num] at hm; cases hm
      | str s => rw [extract_str] at hm; cases hm
      | nilMap => rw [extract_nilMap] at hm; cases hm
      | seq xs =>
        rw [extract_seq_flatMap] at hm
        obtain ⟨c, hc, hmc⟩ := List.mem_flatMap.1 hm
        have := List.sizeOf_lt_of_mem hc
        simp at hsz
        exact ih c (by omega) m hmc
      | map x =>
        rw [extract_map_flatMap x hman] at hm
        obtain ⟨k, _, hmk⟩ := List.mem_flatMap.1 hm
        have := sizeOf_index_lt x k
        simp at hsz
        exact ih (index x k) (by omega) m hmk

theorem extract_mem_isManifest (tree m : Value) (hm : m ∈ ExtractManifestTo [] tree) :
    IsManifest m = true :=
  extract_mem_isManifest_aux (sizeOf tree) tree (Nat.le_refl _) m hm

theorem flatMap_extract_of_manifests (l : List Value) (h : ∀ m ∈ l, IsManifest m = true) :
    l.flatMap (fun c => ExtractManifestTo [] c) = l := by
  induction l with
  | nil => rfl
  | cons a l ih =>
    rw [List.flatMap_cons, extract_of_manifest [] a (h a (List.mem_cons_self a l)),
      ih (fun m hm => h m (List.mem_cons_of_mem a hm))]
    rfl

theorem extract_map_sorted_entries (x es : List (String × Value)) (hp : es.Perm x)
    (hs : es.Pairwise (fun a b => less a.1 b.1 = true))
    (h : IsManifest (Value.map x) = false) :
    ExtractManifestTo [] (Value.map x) = es.flatMap (fun e => ExtractManifestTo [] e.2) := by
  have hs' : (es.map Prod.fst).Pairwise (fun a b => less a b = true) :=
    List.pairwise_map.2 hs
  have hkeys : sortStrings (x.map Prod.fst) = es.map Prod.fst :=
    sortStrings_eq_of_perm_of_increasing (hp.map Prod.fst) hs'
  have hnd : (x.map Prod.fst).Nodup :=
    (hp.map Prod.fst).nodup_iff.1 (nodup_of_increasing hs')
  rw [extract_map_flatMap x h, hkeys, List.flatMap_map]
  apply List.flatMap_congr
  intro e he
  have : index x e.1 = e.2 := index_of_mem hnd (hp.subset he)
  rw [this]

/-- The entries of a map with distinct keys can be arranged by increasing key. -/
theorem exists_sorted_entries (x : List (String × Value)) (hnd : (x.map Prod.fst).Nodup) :
    ∃ es : List (String × Value), es.Perm x ∧
      es.Pairwise (fun a b => less a.1 b.1 = true) := by
  induction x with
  | nil => exact ⟨[], List.Perm.refl _, List.Pairwise.nil⟩
  | cons e rest ih =>
    simp only [List.map_cons, List.nodup_cons] at hnd
    obtain ⟨es, hp, hs⟩ := ih hnd.2
    have hne : ∀ a ∈ es, a.1 ≠ e.1 := by
      intro a ha heq
      exact hnd.1 (List.mem_map.2 ⟨a, hp.subset ha, heq⟩)
    refine ⟨es.filter (fun a => less a.1 e.1) ++ e :: es.filter (fun a => !less a.1 e.1),
      ?_, ?_⟩
    · refine (List.perm_middle).trans (List.Perm.cons e ?_)
      exact (List.filter_append_perm _ es).trans hp
    · rw [List.pairwise_append]
      refine ⟨hs.sublist (List.filter_sublist _), ?_, ?_⟩
      · rw [List.pairwise_cons]
        refine ⟨?_, hs.sublist (List.filter_sublist _)⟩
        intro a ha
        have ha' := List.mem_filter.1 ha
        have hn : less a.1 e.1 = false := by simpa using ha'.2
        rcases less_total e.1 a.1 with h | h | h
        · exact h
        · exact absurd h.symm (hne a ha'.1)
        · rw [h] at hn; cases hn
      · intro a ha b hb
        have ha' := List.mem_filter.1 ha
        have hae : less a.1 e.1 = true := by simpa using ha'.2
        rcases List.mem_cons.1 hb with hb | hb
        · rw [hb]; exact hae
        · have hb' := List.mem_filter.1 hb
          have hn : less b.1 e.1 = false := by simpa using hb'.2
          rcases less_total e.1 b.1 with h | h | h
          · exact less_trans hae h
          · exact absurd h.symm (hne b hb'.1)
          · rw [h] at hn; cases hn

/-! ## Claims about the manifest extractor -/

/-- C1: for a node that is not a manifest, `ExtractManifestTo(nil, node)` is
the concatenation of the extractions of its children. For a map the children
are the values of its entries arranged by strictly increasing key, whatever the
order `x` stores them in (such an arrangement exists for every map with
distinct keys); for a sequence they are its elements in order; any other node
yields the empty sequence. In particular a map that holds two manifests under
"b" and "a" yields the one under "a" first, in either storage order. -/
theorem extract_non_manifest_concat_children (node : Value)
    (h : IsManifest node = false) :
    (match node with
      | Value.map x =>
        ((x.map Prod.fst).Nodup → ∃ es : List (String × Value), es.Perm x ∧
            es.Pairwise (fun a b => less a.1 b.1 = true)) ∧
        ∀ es : List (String × Value), es.Perm x →
          es.Pairwise (fun a b => less a.1 b.1 = true) →
          ExtractManifestTo [] node = es.flatMap (fun e => ExtractManifestTo [] e.2)
      | Value.seq xs =>
        ExtractManifestTo [] node = xs.flatMap (fun c => ExtractManifestTo [] c)
      | _ => ExtractManifestTo [] node = []) ∧
    ∀ mA mB : Value, IsManifest mA = true → IsManifest mB = true →
      ExtractManifestTo [] (Value.map [("b", mB), ("a", mA)]) = [mA, mB] ∧
      ExtractManifestTo [] (Value.map [("a", mA), ("b", mB)]) = [mA, mB] := by
  constructor
  · cases node with
    | map x =>
      exact ⟨exists_sorted_entries x,
        fun es hp hs => extract_map_sorted_entries x es hp hs h⟩
    | seq xs => exact extract_seq_flatMap xs
    | null => exact extract_null []
    | bool b => exact extract_bool [] b
    | num n => exact extract_num [] n
    | str s => exact extract_str [] s
    | nilMap => exact extract_nilMap []
  · intro mA mB hA hB
    have hlt : less "a" "b" = true := by decide
    have hs : List.Pairwise (fun a b : String × Value => less a.1 b.1 = true)
        [("a", mA), ("b", mB)] := by
      refine List.Pairwise.cons ?_ (List.Pairwise.cons ?_ List.Pairwise.nil)
      · intro e he
        rw [List.mem_singleton] at he
        subst he
        exact hlt
      · intro e he
        cases he
    have hba : IsManifest (Value.map [("b", mB), ("a", mA)]) = false := rfl
    have hab : IsManifest (Value.map [("a", mA), ("b", mB)]) = false := rfl
    rw [extract_map_sorted_entries _ _ (List.Perm.swap _ _ _) hs hba,
      extract_map_sorted_entries _ _ (List.Perm.refl _) hs hab]
    simp only [List.flatMap_cons, List.flatMap_nil, List.append_nil]
    rw [extract_of_manifest [] mA hA, extract_of_manifest [] mB hB]
    exact ⟨rfl, rfl⟩

/-- C1 at the map that stores a Pod under "b" before a Service under "a": the
"a"-keyed manifest comes first. -/
theorem extract_non_manifest_concat_children_witness :
    IsManifest bThenA = false ∧ ExtractManifestTo [] bThenA = [service, pod] := by
  refine ⟨by decide, ?_⟩
  have h := (extract_non_manifest_concat_children bThenA (by decide)).1.2
    [("a", service), ("b", pod)] (List.Perm.swap _ _ _) (by decide)
  rw [h]
  simp only [List.flatMap_cons, List.flatMap_nil, List.append_nil]
  rw [extract_of_manifest [] service (by decide), extract_of_manifest [] pod (by decide)]
  rfl

/-- C2: a manifest is extracted as the one-element sequence holding itself,
whatever it contains: extraction does not descend into it. -/
theorem extract_manifest_is_unit (c : Value) (h : IsManifest c = true) :
    ExtractManifestTo [] c = [c] := by
  rw [extract_of_manifest [] c h]
  rfl

/-- C2 at the ConfigMap of the specification and at a List document that
holds a Pod: each yields exactly itself, and the inner Pod is not extracted. -/
theorem extract_manifest_is_unit_witness :
    (IsManifest configMap = true ∧ ExtractManifestTo [] configMap = [configMap]) ∧
    (IsManifest podList = true ∧ IsManifest pod = true ∧
      ExtractManifestTo [] podList = [podList]) :=
  ⟨⟨by decide, extract_manifest_is_unit configMap (by decide)⟩,
    ⟨by decide, by decide, extract_manifest_is_unit podList (by decide)⟩⟩

/-- C3: `IsManifest(x)` holds exactly when `x` is a non-nil map whose
"apiVersion" and "kind" entries are both strings of length at least 1; the
rows of `TestIsManifest` follow. -/
theorem isManifest_iff :
    (∀ x : Value, IsManifest x = true ↔
      ∃ obj a k, x = Value.map obj ∧
        index obj "apiVersion" = Value.str a ∧ 1 ≤ len a ∧
        index obj "kind" = Value.str k ∧ 1 ≤ len k) ∧
    IsManifest Value.null = false ∧
    IsManifest Value.nilMap = false ∧
    IsManifest (Value.map []) = false ∧
    IsManifest (Value.map [("apiVersion", Value.str ""), ("kind", Value.str "")]) = false ∧
    IsManifest (Value.map [("apiVersion", Value.str "foo"), ("kind", Value.null)]) = false ∧
    IsManifest (Value.map [("apiVersion", Value.null), ("kind", Value.str "bar")]) = false ∧
    IsManifest (Value.map [("apiVersion", Value.str "foo"), ("kind", Value.str "bar")]) = true ∧
    IsManifest (Value.map [("kind", Value.str "bar")]) = false ∧
    IsManifest (Value.map [("apiVersion", Value.str "foo")]) = false ∧
    IsManifest (Value.map [("apiVersion", Value.str "foo"), ("kind", Value.str "")]) = false ∧
    IsManifest (Value.map [("apiVersion", Value.num 1), ("kind", Value.str "bar")]) = false ∧
    (∀ b, IsManifest (Value.bool b) = false) ∧
    (∀ n, IsManifest (Value.num n) = false) ∧
    (∀ s, IsManifest (Value.str s) = false) ∧
    (∀ xs, IsManifest (Value.seq xs) = false) :=
  ⟨manifest_shape, rfl, rfl, rfl, by decide, by decide, by decide, by decide, by decide,
    by decide, by decide, by decide, fun _ => rfl, fun _ => rfl, fun _ => rfl, fun _ => rfl⟩

/-- C4: every element of `ExtractManifestTo(nil, tree)` satisfies `IsManifest`:
it is a map with a non-empty string "apiVersion" and a non-empty string "kind".
The map with an empty "apiVersion" is therefore never in the output. -/
theorem extract_outputs_are_manifests (tree m : Value)
    (hm : m ∈ ExtractManifestTo [] tree) :
    IsManifest m = true ∧
    (∃ obj a k, m = Value.map obj ∧
      index obj "apiVersion" = Value.str a ∧ 1 ≤ len a ∧
      index obj "kind" = Value.str k ∧ 1 ≤ len k) ∧
    emptyVersion ∉ ExtractManifestTo [] tree := by
  have h := extract_mem_isManifest tree m hm
  refine ⟨h, (manifest_shape m).1 h, ?_⟩
  intro he
  have := extract_mem_isManifest tree emptyVersion he
  revert this
  decide

/-- C4 at the tree of the specification: only the Pod is extracted. -/
theorem extract_outputs_are_manifests_witness :
    ExtractManifestTo [] itemsTree = [pod] ∧ IsManifest pod = true ∧
    emptyVersion ∉ ExtractManifestTo [] itemsTree := by
  have he : ExtractManifestTo [] itemsTree = [pod] := by
    have hk : sortStrings ["items", "z"] = ["items", "z"] := by decide
    have hn : sortStrings ["not"] = ["not"] := by decide
    have ha : sortStrings ["apiVersion", "kind"] = ["apiVersion", "kind"] := by decide
    have h1 : ExtractManifestTo [] (Value.map [("not", Value.str "manifest")]) = [] := by
      rw [extract_map_flatMap _ (by decide)]
      simp only [List.map_cons, List.map_nil, hn, List.flatMap_cons, List.flatMap_nil]
      have : index [("not", Value.str "manifest")] "not" = Value.str "manifest" := rfl
      rw [this, extract_str]
      rfl
    have h2 : ExtractManifestTo [] emptyVersion = [] := by
      rw [emptyVersion, extract_map_flatMap _ (by decide)]
      simp only [List.map_cons, List.map_nil, ha, List.flatMap_cons, List.flatMap_nil]
      have e1 : index [("apiVersion", Value.str ""), ("kind", Value.str "X")] "apiVersion" =
          Value.str "" := rfl
      have e2 : index [("apiVersion", Value.str ""), ("kind", Value.str "X")] "kind" =
          Value.str "X" := rfl
      rw [e1, e2, extract_str, extract_str]
      rfl
    have h3 : ExtractManifestTo [] (Value.seq [pod, Value.map [("not", Value.str "manifest")]]) =
        [pod] := by
      rw [extract_seq_flatMap]
      simp only [List.flatMap_cons, List.flatMap_nil]
      rw [h1, extract_of_manifest [] pod (by decide)]
      rfl
    rw [itemsTree, extract_map_flatMap _ (by decide)]
    simp only [List.map_cons, List.map_nil, hk, List.flatMap_cons, List.flatMap_nil]
    have e1 : index [("items", Value.seq [pod, Value.map [("not", Value.str "manifest")]]),
        ("z", emptyVersion)] "items" =
          Value.seq [pod, Value.map [("not", Value.str "manifest")]] := rfl
    have e2 : index [("items", Value.seq [pod, Value.map [("not", Value.str "manifest")]]),
        ("z", emptyVersion)] "z" = emptyVersion := rfl
    rw [e1, e2, h2, h3]
    rfl
  have hm : pod ∈ ExtractManifestTo [] itemsTree := by
    rw [he]; exact List.mem_singleton.2 rfl
  exact ⟨he, (extract_outputs_are_manifests itemsTree pod hm).1,
    (extract_outputs_are_manifests itemsTree pod hm).2.2⟩

/-- C5: extracting the output of an extraction, taken as a sequence node,
gives that output back unchanged. -/
theorem extract_idempotent (tree : Value) :
    ExtractManifestTo [] (Value.seq (ExtractManifestTo [] tree)) =
      ExtractManifestTo [] tree := by
  rw [extract_seq_flatMap]
  exact flatMap_extract_of_manifests _ (fun m hm => extract_mem_isManifest tree m hm)

/-- C10: `ExtractManifestTo(dst, obj)` is `dst` followed by what extraction
from an empty accumulator gives. -/
theorem extract_only_appends (dst : List Value) (obj : Value) :
    ExtractManifestTo dst obj = dst ++ ExtractManifestTo [] obj :=
  extract_append dst obj

/-! ## Claims about the importer -/

section ImporterClaims

variable {W FC JF LS : Type} (env : Env W FC JF LS)

theorem httpImport_countLocal (f p from_ path : String) (s : State W FC) :
    countLocal f p (httpImport env from_ path s).2.calls = countLocal f p s.calls ∧
    (httpImport env from_ path s).2.self.bundled = s.self.bundled := by
  rcases httpImport_cases env from_ path s with ⟨e, _, h⟩ | ⟨u, c, _, _, h⟩ |
    ⟨u, e, _, _, h⟩ | ⟨u, bs, _, _, h⟩
  · rw [h]; exact ⟨rfl, rfl⟩
  · rw [h]; exact ⟨rfl, rfl⟩
  · rw [h]; exact ⟨by simp [countLocal], rfl⟩
  · rw [h]; exact ⟨by simp [countLocal], rfl⟩

theorem ensureVendor_countLocal (f p : String) (s : State W FC) :
    countLocal f p (ensureVendor env s).2.calls = countLocal f p s.calls := by
  cases hb : s.self.bundled with
  | true => rw [ensureVendor_bundled env s hb]
  | false =>
    obtain ⟨urls, tail, hcalls, htail, _⟩ := ensureVendor_unbundled env s hb
    rw [hcalls]
    have hu := countLocal_httpGets f p urls
    simp only [countLocal] at hu ⊢
    simp only [List.count_append, List.count_cons, hu]
    rcases htail with h | h | h <;> rw [h] <;> simp

theorem beforeVendor_countLocal (from_ path : String) (s : State W FC) :
    countLocal from_ path (beforeVendor env from_ path s).calls =
      countLocal from_ path s.calls + 1 := by
  unfold beforeVendor
  split
  · rw [(httpImport_countLocal env from_ path from_ path _).1]
    simp [localImport, countLocal]
  · simp [localImport, countLocal]

/-- What `ensureVendor` returns when `bundled` is unset, by the outcome of the
manifest lookup, of creating the vendor directory and of the vendoring tool. -/
theorem ensureVendor_result (t : State W FC) (hb : t.self.bundled = false) :
    (∀ e, (startLookup env t).1 = Except.error e → (ensureVendor env t).1 = none) ∧
    (∀ jf ls e, (startLookup env t).1 = Except.ok (jf, ls) →
      (env.mkdirAll (filepathJoin [t.self.vendorPath, ".tmp"])
        (startLookup env t).2.world).1 = some e →
      (ensureVendor env t).1 = some (wrap e "create vendor directory")) ∧
    (∀ jf ls e, (startLookup env t).1 = Except.ok (jf, ls) →
      (env.mkdirAll (filepathJoin [t.self.vendorPath, ".tmp"])
        (startLookup env t).2.world).1 = none →
      (env.jbEnsure jf t.self.vendorPath ls
        (env.mkdirAll (filepathJoin [t.self.vendorPath, ".tmp"])
          (startLookup env t).2.world).2).1 = some e →
      (ensureVendor env t).1 = some (wrap e "ensure vendor directory")) ∧
    (∀ jf ls, (startLookup env t).1 = Except.ok (jf, ls) →
      (env.mkdirAll (filepathJoin [t.self.vendorPath, ".tmp"])
        (startLookup env t).2.world).1 = none →
      (env.jbEnsure jf t.self.vendorPath ls
        (env.mkdirAll (filepathJoin [t.self.vendorPath, ".tmp"])
          (startLookup env t).2.world).2).1 = none →
      (ensureVendor env t).1 = none) := by
  have hself : (startLookup env t).2.self = t.self :=
    (resolveJsonnetFile_frame env _).1
  have hv : (startLookup env t).2.self.vendorPath = t.self.vendorPath := by rw [hself]
  refine ⟨?_, ?_, ?_, ?_⟩
  · intro e hr
    unfold ensureVendor
    unfold startLookup at hr
    simp only [hb, Bool.false_eq_true, if_false, hr]
  · intro jf ls e hr hm
    unfold ensureVendor
    unfold startLookup at hr hm hv
    simp only [hb, Bool.false_eq_true, if_false, hr, hv, hm]
  · intro jf ls e hr hm he
    unfold ensureVendor
    unfold startLookup at hr hm he hv
    simp only [hb, Bool.false_eq_true, if_false, hr, hv, hm, he]
  · intro jf ls hr hm he
    unfold ensureVendor
    unfold startLookup at hr hm he hv
    simp only [hb, Bool.false_eq_true, if_false, hr, hv, hm, he]

/-- C6 as the code has it: when the local attempt (and the remote attempt,
when made) fails, `Import` retries the local attempt once and returns that
retry's result exactly when `ensureVendor` returns nil, which it does when
provisioning was already attempted, when the manifest lookup fails, and when
provisioning succeeds. When creating the vendor directory or the vendoring
tool reports an error, `ensureVendor` returns it wrapped, and `Import` returns
that error without a retry. -/
theorem import_after_failed_attempts (from_ path : String) (s : State W FC) (err : GoError)
    (hl : (localImport env from_ path s).1 = Except.error err)
    (hr : len from_ = 0 ∨ hasPrefix from_ "http" = true →
      ∃ e, (httpImport env from_ path (localImport env from_ path s).2).1 = Except.error e) :
    ((ensureVendor env (beforeVendor env from_ path s)).1 = none →
      Import env from_ path s =
        localImport env from_ path (ensureVendor env (beforeVendor env from_ path s)).2 ∧
      countLocal from_ path (Import env from_ path s).2.calls =
        countLocal from_ path s.calls + 2) ∧
    (∀ e, (ensureVendor env (beforeVendor env from_ path s)).1 = some e →
      Import env from_ path s =
        (Except.error e, (ensureVendor env (beforeVendor env from_ path s)).2) ∧
      countLocal from_ path (Import env from_ path s).2.calls =
        countLocal from_ path s.calls + 1) ∧
    ((beforeVendor env from_ path s).self.bundled = true →
      (ensureVendor env (beforeVendor env from_ path s)).1 = none) ∧
    ((beforeVendor env from_ path s).self.bundled = false →
      (∀ e, (startLookup env (beforeVendor env from_ path s)).1 = Except.error e →
        (ensureVendor env (beforeVendor env from_ path s)).1 = none) ∧
      (∀ jf ls e,
        (startLookup env (beforeVendor env from_ path s)).1 = Except.ok (jf, ls) →
        (env.mkdirAll (filepathJoin [(beforeVendor env from_ path s).self.vendorPath, ".tmp"])
          (startLookup env (beforeVendor env from_ path s)).2.world).1 = some e →
        (ensureVendor env (beforeVendor env from_ path s)).1 =
          some (wrap e "create vendor directory")) ∧
      (∀ jf ls e,
        (startLookup env (beforeVendor env from_ path s)).1 = Except.ok (jf, ls) →
        (env.mkdirAll (filepathJoin [(beforeVendor env from_ path s).self.vendorPath, ".tmp"])
          (startLookup env (beforeVendor env from_ path s)).2.world).1 = none →
        (env.jbEnsure jf (beforeVendor env from_ path s).self.vendorPath ls
          (env.mkdirAll (filepathJoin [(beforeVendor env from_ path s).self.vendorPath, ".tmp"])
            (startLookup env (beforeVendor env from_ path s)).2.world).2).1 = some e →
        (ensureVendor env (beforeVendor env from_ path s)).1 =
          some (wrap e "ensure vendor directory")) ∧
      (∀ jf ls,
        (startLookup env (beforeVendor env from_ path s)).1 = Except.ok (jf, ls) →
        (env.mkdirAll (filepathJoin [(beforeVendor env from_ path s).self.vendorPath, ".tmp"])
          (startLookup env (beforeVendor env from_ path s)).2.world).1 = none →
        (env.jbEnsure jf (beforeVendor env from_ path s).self.vendorPath ls
          (env.mkdirAll (filepathJoin [(beforeVendor env from_ path s).self.vendorPath, ".tmp"])
            (startLookup env (beforeVendor env from_ path s)).2.world).2).1 = none →
        (ensureVendor env (beforeVendor env from_ path s)).1 = none)) := by
  have hcases := Import_cases env from_ path s
  have hnot1 : ¬ ∃ r, (localImport env from_ path s).1 = Except.ok r ∧
      Import env from_ path s = (Except.ok r, (localImport env from_ path s).2) := by
    rintro ⟨r, h, _⟩
    rw [hl] at h; cases h
  have hnot2 : ¬ ∃ r, (len from_ = 0 ∨ hasPrefix from_ "http" = true) ∧
      (httpImport env from_ path (localImport env from_ path s).2).1 = Except.ok r ∧
      Import env from_ path s = (Except.ok r, beforeVendor env from_ path s) := by
    rintro ⟨r, hc, h, _⟩
    obtain ⟨e, he⟩ := hr hc
    rw [he] at h; cases h
  refine ⟨?_, ?_, ?_, ?_⟩
  · intro hv
    rcases hcases with h | h | ⟨e, hve, _⟩ | ⟨_, h⟩
    · exact absurd h hnot1
    · exact absurd h hnot2
    · rw [hv] at hve; cases hve
    · refine ⟨h, ?_⟩
      rw [h]
      simp only [localImport, countLocal, List.count_append, List.count_singleton_self]
      have h1 := ensureVendor_countLocal env from_ path (beforeVendor env from_ path s)
      have h2 := beforeVendor_countLocal env from_ path s
      simp only [countLocal] at h1 h2
      omega
  · intro e hv
    rcases hcases with h | h | ⟨e', hve, h⟩ | ⟨hvn, _⟩
    · exact absurd h hnot1
    · exact absurd h hnot2
    · rw [hv] at hve; cases hve
      refine ⟨h, ?_⟩
      rw [h]
      rw [ensureVendor_countLocal, beforeVendor_countLocal]
    · rw [hv] at hvn; cases hvn
  · intro hb
    rw [ensureVendor_bundled env _ hb]
  · intro hb
    exact ensureVendor_result env _ hb

/-- C7: across any sequence of `Import` calls on an importer built by
`MakeImporter`, the manifest lookup and the vendoring tool are each invoked at
most once; from any state they are invoked at most once more, and only while
`bundled` is unset. A call of `ensureVendor` always leaves `bundled` set, and
with `bundled` set it returns nil and changes nothing. -/
theorem provisioning_at_most_once (rootFrom vendorPath : String) (jsonnetPath : List String)
    (w : W) (reqs : List (String × String)) (s : State W FC) :
    countResolve (runImports env reqs
      { self := MakeImporter env rootFrom vendorPath jsonnetPath, world := w, calls := [] }).calls
        ≤ 1 ∧
    countEnsure (runImports env reqs
      { self := MakeImporter env rootFrom vendorPath jsonnetPath, world := w, calls := [] }).calls
        ≤ 1 ∧
    countResolve (runImports env reqs s).calls ≤
      countResolve s.calls + (if s.self.bundled then 0 else 1) ∧
    countEnsure (runImports env reqs s).calls ≤
      countEnsure s.calls + (if s.self.bundled then 0 else 1) ∧
    (ensureVendor env s).2.self.bundled = true ∧
    ensureVendor env (setBundled s) = (none, setBundled s) := by
  have key : ∀ t : State W FC,
      countResolve (runImports env reqs t).calls ≤
        countResolve t.calls + (if t.self.bundled then 0 else 1) ∧
      countEnsure (runImports env reqs t).calls ≤
        countEnsure t.calls + (if t.self.bundled then 0 else 1) := by
    intro t
    obtain ⟨_, _, _, hr, he⟩ := runImports_advances env reqs t
    simp only [resolveBudget, ensureBudget] at hr he
    constructor <;> omega
  refine ⟨?_, ?_, (key s).1, (key s).2, (ensureVendor_frame env s).1,
    ensureVendor_bundled env _ rfl⟩
  · exact (key _).1
  · exact (key _).2

end ImporterClaims

/-- C6 as stated fails: with nothing found locally or remotely, a manifest
found and the vendor directory impossible to create, the first `Import` of an
importer returns the wrapped vendoring error, which is not the result of a
local retry, and the local importer is asked only once. The same happens when
the directory is created and the vendoring tool fails. -/
theorem import_returns_vendor_error :
    (localImport envMkdirFails "https://host/a/main.jsonnet" "lib.libsonnet"
      (fresh envMkdirFails "https://host/a/main.jsonnet")).1 =
        Except.error "no match locally: lib.libsonnet" ∧
    (httpImport envMkdirFails "https://host/a/main.jsonnet" "lib.libsonnet"
      (localImport envMkdirFails "https://host/a/main.jsonnet" "lib.libsonnet"
        (fresh envMkdirFails "https://host/a/main.jsonnet")).2).1 =
        Except.error "got 404 Not Found when import from https://host/a/lib.libsonnet" ∧
    (ensureVendor envMkdirFails
      (beforeVendor envMkdirFails "https://host/a/main.jsonnet" "lib.libsonnet"
        (fresh envMkdirFails "https://host/a/main.jsonnet"))).1 =
        some "create vendor directory: permission denied" ∧
    (Import envMkdirFails "https://host/a/main.jsonnet" "lib.libsonnet"
      (fresh envMkdirFails "https://host/a/main.jsonnet")).1 =
        Except.error "create vendor directory: permission denied" ∧
    (Import envMkdirFails "https://host/a/main.jsonnet" "lib.libsonnet"
      (fresh envMkdirFails "https://host/a/main.jsonnet")).1 ≠
      (localImport envMkdirFails "https://host/a/main.jsonnet" "lib.libsonnet"
        (ensureVendor envMkdirFails
          (beforeVendor envMkdirFails "https://host/a/main.jsonnet" "lib.libsonnet"
            (fresh envMkdirFails "https://host/a/main.jsonnet"))).2).1 ∧
    (Import envMkdirFails "https://host/a/main.jsonnet" "lib.libsonnet"
      (fresh envMkdirFails "https://host/a/main.jsonnet")).2.calls =
        [Event.localImport "https://host/a/main.jsonnet" "lib.libsonnet",
          Event.httpGet "https://host/a/lib.libsonnet",
          Event.resolveJsonnetFile,
          Event.httpGet "https://host/a/jsonnetfile.json",
          Event.httpGet "https://host/a/jsonnetfile.lock.json",
          Event.mkdirAll "vendor/.tmp"] ∧
    (Import envEnsureFails "https://host/a/main.jsonnet" "lib.libsonnet"
      (fresh envEnsureFails "https://host/a/main.jsonnet")).1 =
        Except.error "ensure vendor directory: unable to fetch dependency" ∧
    (Import envEnsureFails "https://host/a/main.jsonnet" "lib.libsonnet"
      (fresh envEnsureFails "https://host/a/main.jsonnet")).1 ≠
      (localImport envEnsureFails "https://host/a/main.jsonnet" "lib.libsonnet"
        (ensureVendor envEnsureFails
          (beforeVendor envEnsureFails "https://host/a/main.jsonnet" "lib.libsonnet"
            (fresh envEnsureFails "https://host/a/main.jsonnet"))).2).1 ∧
    countLocal "https://host/a/main.jsonnet" "lib.libsonnet"
      (Import envEnsureFails "https://host/a/main.jsonnet" "lib.libsonnet"
        (fresh envEnsureFails "https://host/a/main.jsonnet")).2.calls = 1 := by
  refine ⟨by decide, by decide, by decide, by decide, by decide, by decide, by decide,
    by decide, by decide⟩

/-- C6 (as the code has it) where no manifest is found: the local and the
remote attempt fail, `ensureVendor` returns nil, and `Import` returns the
result of the one local retry. -/
theorem import_after_failed_attempts_witness :
    (localImport envNoManifest "https://host/a/main.jsonnet" "lib.libsonnet"
      (fresh envNoManifest "https://host/a/main.jsonnet")).1 =
        Except.error "no match locally: lib.libsonnet" ∧
    (httpImport envNoManifest "https://host/a/main.jsonnet" "lib.libsonnet"
      (localImport envNoManifest "https://host/a/main.jsonnet" "lib.libsonnet"
        (fresh envNoManifest "https://host/a/main.jsonnet")).2).1 =
        Except.error "connection refused" ∧
    (ensureVendor envNoManifest
      (beforeVendor envNoManifest "https://host/a/main.jsonnet" "lib.libsonnet"
        (fresh envNoManifest "https://host/a/main.jsonnet"))).1 = none ∧
    Import envNoManifest "https://host/a/main.jsonnet" "lib.libsonnet"
      (fresh envNoManifest "https://host/a/main.jsonnet") =
        localImport envNoManifest "https://host/a/main.jsonnet" "lib.libsonnet"
          (ensureVendor envNoManifest
            (beforeVendor envNoManifest "https://host/a/main.jsonnet" "lib.libsonnet"
              (fresh envNoManifest "https://host/a/main.jsonnet"))).2 ∧
    (Import envNoManifest "https://host/a/main.jsonnet" "lib.libsonnet"
      (fresh envNoManifest "https://host/a/main.jsonnet")).1 =
        Except.error "no match locally: lib.libsonnet" ∧
    countLocal "https://host/a/main.jsonnet" "lib.libsonnet"
      (Import envNoManifest "https://host/a/main.jsonnet" "lib.libsonnet"
        (fresh envNoManifest "https://host/a/main.jsonnet")).2.calls = 2 :=
  have hh : (httpImport envNoManifest "https://host/a/main.jsonnet" "lib.libsonnet"
      (localImport envNoManifest "https://host/a/main.jsonnet" "lib.libsonnet"
        (fresh envNoManifest "https://host/a/main.jsonnet")).2).1 =
        Except.error "connection refused" := by decide
  have hv : (ensureVendor envNoManifest
      (beforeVendor envNoManifest "https://host/a/main.jsonnet" "lib.libsonnet"
        (fresh envNoManifest "https://host/a/main.jsonnet"))).1 = none := by decide
  have h := (import_after_failed_attempts envNoManifest "https://host/a/main.jsonnet"
    "lib.libsonnet" (fresh envNoManifest "https://host/a/main.jsonnet")
    "no match locally: lib.libsonnet" (by decide) (fun _ => ⟨_, hh⟩)).1 hv
  ⟨by decide, hh, hv, h.1, by decide, h.2⟩

section CacheClaims

variable {W FC JF LS : Type} (env : Env W FC JF LS)

/-- C8: an entry `u ↦ c` of the cache stays as it is through any sequence of
`Import` calls, and afterwards every remote attempt that resolves to `u`
returns `(c, u)` with the state untouched, so without an HTTP request; an
`Import` whose local attempt fails and whose remote attempt resolves to `u`
returns `(c, u)` too. No remote attempt overwrites or removes an entry, a
failed one leaves the importer as it was, and a successful one leaves its
result in the cache under the URL it returns. -/
theorem cache_entries_are_stable (s : State W FC) (u : String) (c : Contents)
    (h : s.self.cache u = some c) (reqs : List (String × String)) :
    (runImports env reqs s).self.cache u = some c ∧
    (∀ from_ path,
      foundAt (runImports env reqs s).self.rootFrom from_ path = Except.ok u →
      httpImport env from_ path (runImports env reqs s) =
        (Except.ok (c, u), runImports env reqs s)) ∧
    (∀ from_ path err,
      (localImport env from_ path (runImports env reqs s)).1 = Except.error err →
      (len from_ = 0 ∨ hasPrefix from_ "http" = true) →
      foundAt (runImports env reqs s).self.rootFrom from_ path = Except.ok u →
      Import env from_ path (runImports env reqs s) =
        (Except.ok (c, u), (localImport env from_ path (runImports env reqs s)).2)) ∧
    (∀ (t : State W FC) from_ path k v, t.self.cache k = some v →
      (httpImport env from_ path t).2.self.cache k = some v ∧
      (Import env from_ path t).2.self.cache k = some v) ∧
    (∀ (t : State W FC) from_ path e, (httpImport env from_ path t).1 = Except.error e →
      (httpImport env from_ path t).2.self = t.self) ∧
    (∀ (t : State W FC) from_ path r, (httpImport env from_ path t).1 = Except.ok r →
      (httpImport env from_ path t).2.self.cache r.2 = some r.1) := by
  have hrun := runImports_advances env reqs s
  have hc : (runImports env reqs s).self.cache u = some c := hrun.2.2.1 u c h
  refine ⟨hc, ?_, ?_, ?_, ?_, ?_⟩
  · intro from_ path hf
    exact httpImport_hit env from_ path _ u c hf hc
  · intro from_ path err hl hcond hf
    have hit := httpImport_hit env from_ path
      (localImport env from_ path (runImports env reqs s)).2 u c hf hc
    unfold Import
    dsimp only
    rw [hl]
    dsimp only
    rw [if_pos hcond, hit]
  · intro t from_ path k v hk
    exact ⟨(httpImport_advances env from_ path t).2.2.1 k v hk,
      (Import_advances env from_ path t).2.2.1 k v hk⟩
  · intro t from_ path e he
    exact httpImport_error_state env from_ path t e he
  · intro t from_ path r hr
    exact (httpImport_ok_cache env from_ path t r hr).1

/-- C9 as the code has it: importing `lib/x.ext` from
`https://host/a/b/tmpl.ext`, `httpImport` looks up and fetches
`https://host/a/b/lib/x.ext`. On a hit it returns the cached contents with that
location; on a miss its one request goes to that URL, and a successful fetch
returns that location. -/
theorem httpImport_resolves_in_directory (s : State W FC) :
    foundAt s.self.rootFrom "https://host/a/b/tmpl.ext" "lib/x.ext" =
      Except.ok "https://host/a/b/lib/x.ext" ∧
    match s.self.cache "https://host/a/b/lib/x.ext" with
    | some c =>
      httpImport env "https://host/a/b/tmpl.ext" "lib/x.ext" s =
        (Except.ok (c, "https://host/a/b/lib/x.ext"), s)
    | none =>
      (httpImport env "https://host/a/b/tmpl.ext" "lib/x.ext" s).2.calls =
        s.calls ++ [Event.httpGet "https://host/a/b/lib/x.ext"] ∧
      ∀ r, (httpImport env "https://host/a/b/tmpl.ext" "lib/x.ext" s).1 = Except.ok r →
        r.2 = "https://host/a/b/lib/x.ext" := by
  have hf : foundAt s.self.rootFrom "https://host/a/b/tmpl.ext" "lib/x.ext" =
      Except.ok "https://host/a/b/lib/x.ext" := rfl
  refine ⟨hf, ?_⟩
  cases hc : s.self.cache "https://host/a/b/lib/x.ext" with
  | some c => exact httpImport_hit env _ _ s _ c hf hc
  | none =>
    dsimp only
    rcases httpImport_cases env "https://host/a/b/tmpl.ext" "lib/x.ext" s with
      ⟨e, hf', _⟩ | ⟨u, c, hf', hc', _⟩ | ⟨u, e, hf', _, h⟩ | ⟨u, bs, hf', _, h⟩
    · rw [hf] at hf'; cases hf'
    · rw [hf] at hf'; cases hf'
      rw [hc] at hc'; cases hc'
    · rw [hf] at hf'; cases hf'
      rw [h]
      exact ⟨rfl, fun r hr => by cases hr⟩
    · rw [hf] at hf'; cases hf'
      rw [h]
      exact ⟨rfl, fun r hr => by cases hr; rfl⟩

end CacheClaims

/-- C8 at an importer that fetched `https://host/a/b/lib/x.ext` once: after
two more imports, one of them failing, the entry is still there, and a remote
attempt for it answers from the cache with no further request. -/
theorem cache_entries_are_stable_witness :
    (httpImport envRemote "https://host/a/b/tmpl.ext" "lib/x.ext"
      (fresh envRemote "https://host/a/b/tmpl.ext")).2.self.cache
        "https://host/a/b/lib/x.ext" = some (MakeContents "local x = 1; x") ∧
    (runImports envRemote
      [("https://host/a/b/tmpl.ext", "missing.ext"), ("", "lib/x.ext")]
      (httpImport envRemote "https://host/a/b/tmpl.ext" "lib/x.ext"
        (fresh envRemote "https://host/a/b/tmpl.ext")).2).self.cache
        "https://host/a/b/lib/x.ext" = some (MakeContents "local x = 1; x") ∧
    countHttp (httpImport envRemote "https://host/a/b/tmpl.ext" "lib/x.ext"
      (runImports envRemote
        [("https://host/a/b/tmpl.ext", "missing.ext"), ("", "lib/x.ext")]
        (httpImport envRemote "https://host/a/b/tmpl.ext" "lib/x.ext"
          (fresh envRemote "https://host/a/b/tmpl.ext")).2)).2.calls =
      countHttp (runImports envRemote
        [("https://host/a/b/tmpl.ext", "missing.ext"), ("", "lib/x.ext")]
        (httpImport envRemote "https://host/a/b/tmpl.ext" "lib/x.ext"
          (fresh envRemote "https://host/a/b/tmpl.ext")).2).calls :=
  have h0 : (httpImport envRemote "https://host/a/b/tmpl.ext" "lib/x.ext"
      (fresh envRemote "https://host/a/b/tmpl.ext")).2.self.cache
        "https://host/a/b/lib/x.ext" = some (MakeContents "local x = 1; x") := by decide
  have h := cache_entries_are_stable envRemote
    (httpImport envRemote "https://host/a/b/tmpl.ext" "lib/x.ext"
      (fresh envRemote "https://host/a/b/tmpl.ext")).2
    "https://host/a/b/lib/x.ext" (MakeContents "local x = 1; x") h0
    [("https://host/a/b/tmpl.ext", "missing.ext"), ("", "lib/x.ext")]
  ⟨h0, h.1, by rw [h.2.1 "https://host/a/b/tmpl.ext" "lib/x.ext" rfl]⟩

/-- C9 as stated fails: for `lib/x.ext` imported from
`https://host/a/b/tmpl.ext` the location is `https://host/a/b/lib/x.ext`, and
the one request of a fresh importer goes there, not to
`https://host/a/lib/x.ext`. -/
theorem httpImport_location_counterexample :
    foundAt "https://host/a/b/tmpl.ext" "https://host/a/b/tmpl.ext" "lib/x.ext" ≠
      Except.ok "https://host/a/lib/x.ext" ∧
    (httpImport envRemote "https://host/a/b/tmpl.ext" "lib/x.ext"
      (fresh envRemote "https://host/a/b/tmpl.ext")).1 =
        Except.ok (MakeContents "local x = 1; x", "https://host/a/b/lib/x.ext") ∧
    (httpImport envRemote "https://host/a/b/tmpl.ext" "lib/x.ext"
      (fresh envRemote "https://host/a/b/tmpl.ext")).2.calls =
        [Event.httpGet "https://host/a/b/lib/x.ext"] ∧
    (httpImport envRemote "https://host/a/b/tmpl.ext" "lib/x.ext"
      (fresh envRemote "https://host/a/b/tmpl.ext")).2.calls ≠
        [Event.httpGet "https://host/a/lib/x.ext"] := by
  refine ⟨by decide, by decide, by decide, by decide⟩

end Jsonnetx
